import Mathlib

/-!
# PythonGo string utilities (`PythonFunc.go`)

A shallow embedding of the string functions of `PythonFunc.go`.

* A Go `string` is an immutable sequence of bytes. A Go `rune` is a code point;
  every rune that arises in this program is non-negative, so `Nat` stands for
  the `int32`.
* `for _, r := range s` and `[]rune(s)` decode UTF-8 (`runes`), `string([]rune)`
  encodes it (`EncodeRunes`); `s[i]` and `s[lo:hi]` work on bytes and fault when
  out of range.
* Every function sends one value on its result channel; the embedding returns
  that value.
* Index variables are Go `int`s and are modelled as `Int` (lengths are far
  below `2^63`, so no wrap-around is reachable).
* Loops are structural recursions on a fuel counter; running out of fuel is a
  result of its own (`Res.outOfFuel`), distinct from a run-time fault
  (`Res.fault`).
-/

namespace PythonGo

/-! ## Data model -/

/-- A Go `byte`. -/
abbrev Byte := Fin 256

/-- A Go `string`: a sequence of bytes. -/
abbrev GoString := List Byte

/-- Outcome of running a piece of Go code: a value, a run-time fault (index or
slice out of range), or the fuel of the model ran out. -/
inductive Res (α : Type) where
  | ok (a : α)
  | fault
  | outOfFuel
  deriving DecidableEq, Repr

/-- Sequencing of outcomes. -/
def Res.bind {α β : Type} (x : Res α) (f : α → Res β) : Res β :=
  match x with
  | .ok a => f a
  | .fault => .fault
  | .outOfFuel => .outOfFuel

/-- Go's conversion `byte(n)`: truncation to eight bits. -/
def byteOf (n : Nat) : Byte := Fin.ofNat n

/-- Go's slice expression `s[lo:hi]` on a string: faults unless
`0 <= lo <= hi <= len(s)`. -/
def slice (s : GoString) (lo hi : Int) : Res GoString :=
  if 0 ≤ lo ∧ lo ≤ hi ∧ hi ≤ (s.length : Int) then
    .ok ((s.drop lo.toNat).take (hi - lo).toNat)
  else .fault

/-- Go's index expression `s[i]` on a string: faults unless `0 <= i < len(s)`. -/
def index (s : GoString) (i : Int) : Res Byte :=
  if 0 ≤ i then
    match s.get? i.toNat with
    | some b => .ok b
    | none => .fault
  else .fault

/-! ## UTF-8 (Go's `unicode/utf8` and the string/rune conversions) -/

/-- The replacement character `utf8.RuneError`. -/
def RuneError : Nat := 0xFFFD

/-- The rune is a Unicode scalar value: at most `utf8.MaxRune` and not a
surrogate. These are the runes `utf8.EncodeRune` encodes as themselves. -/
def ValidRune (r : Nat) : Prop := r ≤ 0x10FFFF ∧ ¬ (0xD800 ≤ r ∧ r ≤ 0xDFFF)

instance (r : Nat) : Decidable (ValidRune r) := by
  unfold ValidRune; infer_instance

/-- Go's `utf8.EncodeRune` (as used by `string([]rune)`): one to four bytes;
surrogates and values above `MaxRune` are encoded as `RuneError`. -/
def EncodeRune (r : Nat) : GoString :=
  if r ≤ 0x7F then [byteOf r]
  else if r ≤ 0x7FF then [byteOf (0xC0 + r / 64), byteOf (0x80 + r % 64)]
  else if 0x10FFFF < r ∨ (0xD800 ≤ r ∧ r ≤ 0xDFFF) then [0xEF, 0xBF, 0xBD]
  else if r ≤ 0xFFFF then
    [byteOf (0xE0 + r / 4096), byteOf (0x80 + r / 64 % 64), byteOf (0x80 + r % 64)]
  else
    [byteOf (0xF0 + r / 262144), byteOf (0x80 + r / 4096 % 64),
     byteOf (0x80 + r / 64 % 64), byteOf (0x80 + r % 64)]

/-- Go's conversion `string(rs)` of a rune slice. -/
def EncodeRunes (rs : List Nat) : GoString := rs.flatMap EncodeRune

/-- The size entry of Go's table `first` for a lead byte in `0xC2..0xF4`:
the width of the encoding the byte starts. -/
def firstSize (s0 : Byte) : Nat :=
  if s0.val < 0xE0 then 2 else if s0.val < 0xF0 then 3 else 4

/-- Go's `acceptRanges[...].lo` for a lead byte in `0xC2..0xF4`: the least
second byte accepted after it. -/
def acceptLo (s0 : Byte) : Nat :=
  if s0.val = 0xE0 then 0xA0 else if s0.val = 0xF0 then 0x90 else 0x80

/-- Go's `acceptRanges[...].hi` for a lead byte in `0xC2..0xF4`: the greatest
second byte accepted after it. -/
def acceptHi (s0 : Byte) : Nat :=
  if s0.val = 0xED then 0x9F else if s0.val = 0xF4 then 0x8F else 0xBF

/-- Go's `utf8.DecodeRuneInString`: the first rune of `s` and its width in
bytes. An invalid or truncated encoding yields `(RuneError, 1)`; the empty
string yields `(RuneError, 0)`. Lead bytes below `0x80` are ASCII; lead bytes
`0x80..0xC1` and `0xF5..0xFF` are invalid (`first[s0] = xx`). -/
def DecodeRune (s : GoString) : Nat × Nat :=
  match s with
  | [] => (RuneError, 0)
  | s0 :: t =>
    if s0.val < 0x80 then (s0.val, 1)
    else if s0.val < 0xC2 ∨ 0xF4 < s0.val then (RuneError, 1)
    else if (s0 :: t).length < firstSize s0 then (RuneError, 1)
    else
      match t with
      | [] => (RuneError, 1)
      | s1 :: t1 =>
        if s1.val < acceptLo s0 ∨ acceptHi s0 < s1.val then (RuneError, 1)
        else if firstSize s0 ≤ 2 then ((s0.val % 32) * 64 + s1.val % 64, 2)
        else
          match t1 with
          | [] => (RuneError, 1)
          | s2 :: t2 =>
            if s2.val < 0x80 ∨ 0xBF < s2.val then (RuneError, 1)
            else if firstSize s0 ≤ 3 then
              ((s0.val % 16) * 4096 + (s1.val % 64) * 64 + s2.val % 64, 3)
            else
              match t2 with
              | [] => (RuneError, 1)
              | s3 :: _ =>
                if s3.val < 0x80 ∨ 0xBF < s3.val then (RuneError, 1)
                else
                  ((s0.val % 8) * 262144 + (s1.val % 64) * 4096
                    + (s2.val % 64) * 64 + s3.val % 64, 4)

/-- The loop `for _, r := range s` (and the conversion `[]rune(s)`): decode
rune after rune until the string is used up. Every step consumes at least one
byte, so `len(s)` steps are enough. -/
def rangeRunes : Nat → GoString → List Nat
  | 0, _ => []
  | _ + 1, [] => []
  | fuel + 1, b :: t =>
    (DecodeRune (b :: t)).1 :: rangeRunes fuel ((b :: t).drop (DecodeRune (b :: t)).2)

/-- The runes of a string, as `range` and `[]rune(s)` see them. -/
def runes (s : GoString) : List Nat := rangeRunes s.length s

/-- The bytes of a string literal. -/
def str (s : String) : GoString := EncodeRunes (s.toList.map Char.toNat)

/-! ## `Count` -/

/-- The loop of `Count`:
`for i := 0; i <= len(input)-substrLen; i++ { if input[i:i+substrLen] == substr { count++ } }`,
entered at the given `i` and `count`. -/
def countLoop (input substr : GoString) : Nat → Int → Int → Res Int
  | fuel, i, count =>
    if i ≤ (input.length : Int) - (substr.length : Int) then
      match fuel with
      | 0 => .outOfFuel
      | fuel + 1 =>
        (slice input i (i + substr.length)).bind fun w =>
          countLoop input substr fuel (i + 1) (if w = substr then count + 1 else count)
    else .ok count

/-- The function `Count(input, substr)`: the value sent on the result channel.
The loop runs at most `len(input) + 1` times. -/
def Count (input substr : GoString) : Res Int :=
  countLoop input substr (input.length + 1) 0 0

/-- The count the specification describes: scan left to right, and after a
match at position `i` resume at `i + len(substr)` (non-overlapping
occurrences). Written from the specification, to be compared with `Count`.
An empty `substr` is given the count 0. -/
def countNonOverlappingFrom (substr : GoString) : Nat → GoString → Nat
  | 0, _ => 0
  | _ + 1, [] => 0
  | fuel + 1, b :: t =>
    if substr ≠ [] ∧ substr.isPrefixOf (b :: t) then
      1 + countNonOverlappingFrom substr fuel ((b :: t).drop substr.length)
    else countNonOverlappingFrom substr fuel t

/-- The number of non-overlapping left-to-right occurrences of `substr` in
`text`; `len(text)` steps of the scan are enough. -/
def countNonOverlapping (text substr : GoString) : Nat :=
  countNonOverlappingFrom substr text.length text

/-! ## `Lower` and `Upper` -/

/-- The function `Lower(input)`: every rune of `input` in `'A'..'Z'` is
appended as `char + 'a' - 'A'`, every other rune as it is; the runes are then
converted back to a string. -/
def Lower (input : GoString) : GoString :=
  EncodeRunes ((runes input).foldl (fun transformed char =>
    if 65 ≤ char ∧ char ≤ 90 then transformed ++ [char + 97 - 65]
    else transformed ++ [char]) [])

/-- The function `Upper(input)`: every rune of `input` in `'a'..'z'` is
appended as `char - 'a' + 'A'`, every other rune as it is. -/
def Upper (input : GoString) : GoString :=
  EncodeRunes ((runes input).foldl (fun transformed char =>
    if 97 ≤ char ∧ char ≤ 122 then transformed ++ [char - 97 + 65]
    else transformed ++ [char]) [])

/-! ## `Strip` -/

/-- Go's `unicode.IsSpace`: in Latin-1 the characters
`'\t', '\n', '\v', '\f', '\r', ' ', U+0085, U+00A0`; above Latin-1 the
`White_Space` property (U+1680, U+2000..U+200A, U+2028, U+2029, U+202F,
U+205F, U+3000). -/
def unicodeIsSpace (r : Nat) : Bool :=
  if r ≤ 0xFF then
    decide (r = 0x09 ∨ r = 0x0A ∨ r = 0x0B ∨ r = 0x0C ∨ r = 0x0D ∨ r = 0x20
      ∨ r = 0x85 ∨ r = 0xA0)
  else
    decide (r = 0x1680 ∨ (0x2000 ≤ r ∧ r ≤ 0x200A) ∨ r = 0x2028 ∨ r = 0x2029
      ∨ r = 0x202F ∨ r = 0x205F ∨ r = 0x3000)

/-- The test `unicode.IsSpace(rune(input[i]))` of `Strip` on the byte
`input[i]`: the byte itself is taken as the rune. -/
def isSpaceByte (b : Byte) : Bool := unicodeIsSpace b.val

/-- The first loop of `Strip`:
`for start <= end && unicode.IsSpace(rune(input[start])) { start++ }`.
Delivers the final `start`. -/
def stripLeading (input : GoString) : Nat → Int → Int → Res Int
  | fuel, start, endIdx =>
    if start ≤ endIdx then
      (index input start).bind fun b =>
        if isSpaceByte b then
          match fuel with
          | 0 => .outOfFuel
          | fuel + 1 => stripLeading input fuel (start + 1) endIdx
        else .ok start
    else .ok start

/-- The second loop of `Strip`:
`for end >= start && unicode.IsSpace(rune(input[end])) { end-- }`.
Delivers the final `end`. -/
def stripTrailing (input : GoString) : Nat → Int → Int → Res Int
  | fuel, start, endIdx =>
    if endIdx ≥ start then
      (index input endIdx).bind fun b =>
        if isSpaceByte b then
          match fuel with
          | 0 => .outOfFuel
          | fuel + 1 => stripTrailing input fuel start (endIdx - 1)
        else .ok endIdx
    else .ok endIdx

/-- The function `Strip(input)`: `start, end := 0, len(input)-1`, the two
loops, then `input[start : end+1]`. Each loop runs at most `len(input)`
times. -/
def Strip (input : GoString) : Res GoString :=
  (stripLeading input input.length 0 ((input.length : Int) - 1)).bind fun start =>
    (stripTrailing input input.length start ((input.length : Int) - 1)).bind fun endIdx =>
      slice input start (endIdx + 1)

/-- The loop of `IsSpace`: `false` at the first rune that is not white space,
`true` when the runes are used up. -/
def isSpaceLoop : List Nat → Bool
  | [] => true
  | r :: rs => if !unicodeIsSpace r then false else isSpaceLoop rs

/-- The function `IsSpace(input)`. -/
def IsSpace (input : GoString) : Bool := isSpaceLoop (runes input)

/-- The stripping the specification describes, on the code points of the text:
the longest prefix and the longest suffix of white-space code points are
removed and every other code point is kept. Written from the specification, to
be compared with `Strip`. -/
def stripRef (input : GoString) : GoString :=
  EncodeRunes (((runes input).dropWhile unicodeIsSpace).rdropWhile unicodeIsSpace)

/-! ## `Replace` -/

/-- The loop of `Replace`, entered at index `i` with the runes collected so
far:
`for i < len(input) { if i+oldLen <= len(input) && input[i:i+oldLen] == old {...; i += oldLen} else {...; i++} }`.
The `else` branch appends `rune(input[i])`, the byte at `i` taken as a rune. -/
def replaceLoop (input old new : GoString) : Nat → Int → List Nat → Res (List Nat)
  | fuel, i, resultString =>
    if i < (input.length : Int) then
      match fuel with
      | 0 => .outOfFuel
      | fuel + 1 =>
        if i + (old.length : Int) ≤ (input.length : Int) then
          (slice input i (i + old.length)).bind fun w =>
            if w = old then
              replaceLoop input old new fuel (i + old.length) (resultString ++ runes new)
            else
              (index input i).bind fun b =>
                replaceLoop input old new fuel (i + 1) (resultString ++ [b.val])
        else
          (index input i).bind fun b =>
            replaceLoop input old new fuel (i + 1) (resultString ++ [b.val])
    else .ok resultString

/-- The function `Replace(input, old, new)` run for at most `fuel` iterations
of its loop: the string sent on the result channel. -/
def Replace (fuel : Nat) (input old new : GoString) : Res GoString :=
  (replaceLoop input old new fuel 0 []).bind fun resultString =>
    .ok (EncodeRunes resultString)

/-- The replacement the specification describes, on the bytes of the text:
scanning from the start, where `old` occurs emit `new` and resume right after
the match, otherwise emit the current element unchanged and advance by one.
Written from the specification, to be compared with `Replace`. -/
def replaceRefFrom (old new : GoString) : Nat → GoString → GoString
  | 0, _ => []
  | _ + 1, [] => []
  | fuel + 1, b :: t =>
    if old ≠ [] ∧ old.isPrefixOf (b :: t) then
      new ++ replaceRefFrom old new fuel ((b :: t).drop old.length)
    else b :: replaceRefFrom old new fuel t

/-- The reference replacement of `old` by `new` in `text`; `len(text)` steps of
the scan are enough. -/
def replaceRef (text old new : GoString) : GoString :=
  replaceRefFrom old new text.length text

/-! ## `Split` and `Join` -/

/-- The loop of `Split`, entered at index `i`:
`for i := 0; i < len(input); i++ { if input[i:i+len(separator)] == separator { resultSlice = append(resultSlice, input[start:i]); start = i + len(separator); i += len(separator) - 1 } }`.
Delivers the final `start` and `resultSlice`. The window `input[i:i+len(separator)]`
is taken without a bounds check. -/
def splitLoop (input separator : GoString) :
    Nat → Int → Int → List GoString → Res (Int × List GoString)
  | fuel, i, start, resultSlice =>
    if i < (input.length : Int) then
      match fuel with
      | 0 => .outOfFuel
      | fuel + 1 =>
        (slice input i (i + separator.length)).bind fun w =>
          if w = separator then
            (slice input start i).bind fun seg =>
              splitLoop input separator fuel ((i + ((separator.length : Int) - 1)) + 1)
                (i + separator.length) (resultSlice ++ [seg])
          else splitLoop input separator fuel (i + 1) start resultSlice
    else .ok (start, resultSlice)

/-- The function `Split(input, separator)` run for at most `fuel` iterations
of its loop; after the loop the rest `input[start:]` is appended when
`start < len(input)`. -/
def Split (fuel : Nat) (input separator : GoString) : Res (List GoString) :=
  (splitLoop input separator fuel 0 0 []).bind fun p =>
    if p.1 < (input.length : Int) then
      (slice input p.1 input.length).bind fun seg => .ok (p.2 ++ [seg])
    else .ok p.2

/-- The loop of `Join`: `for i, element := range elements`, appending the runes
of `separator` when `i > 0` and then the runes of `element`. -/
def joinLoop (separator : GoString) : List GoString → Nat → List Nat → List Nat
  | [], _, resultString => resultString
  | element :: rest, i, resultString =>
    joinLoop separator rest (i + 1)
      ((if i > 0 then resultString ++ runes separator else resultString) ++ runes element)

/-- The function `Join(elements, separator)`. -/
def Join (elements : List GoString) (separator : GoString) : GoString :=
  EncodeRunes (joinLoop separator elements 0 [])

/-- Positions at which `s` occurs in `t`. -/
def occurrences (t s : GoString) : List Nat :=
  (List.range (t.length + 1)).filter fun i => s.isPrefixOf (t.drop i)

/-- No two occurrences of `s` in `t` overlap or touch: two distinct
occurrences are more than `len(s)` apart. -/
def NoOverlapOrTouch (t s : GoString) : Prop :=
  ∀ i ∈ occurrences t s, ∀ j ∈ occurrences t s, i < j → i + s.length < j

instance (t s : GoString) : Decidable (NoOverlapOrTouch t s) := by
  unfold NoOverlapOrTouch; infer_instance

/-- The string is valid UTF-8: converting it to runes and back, as Go's
`string([]rune(s))` does, gives the same bytes. (An invalid byte decodes to
`RuneError`, which is encoded as three other bytes.) -/
def ValidUTF8 (s : GoString) : Prop := EncodeRunes (runes s) = s

instance (s : GoString) : Decidable (ValidUTF8 s) := by
  unfold ValidUTF8; infer_instance

/-! ## `Find`, `StartsWith`, `EndsWith` -/

/-- The loop of `Find`:
`for i := 0; i <= len(input)-substrLen; i++ { if input[i:i+substrLen] == substr { result <- i; return } }`
followed by `result <- -1`, entered at the given `i`. Delivers the value sent. -/
def findLoop (input substr : GoString) : Nat → Int → Res Int
  | fuel, i =>
    if i ≤ (input.length : Int) - (substr.length : Int) then
      match fuel with
      | 0 => .outOfFuel
      | fuel + 1 =>
        (slice input i (i + substr.length)).bind fun w =>
          if w = substr then .ok i else findLoop input substr fuel (i + 1)
    else .ok (-1)

/-- The function `Find(input, substr)`: the value sent on the result channel.
The loop runs at most `len(input) + 1` times. -/
def Find (input substr : GoString) : Res Int :=
  findLoop input substr (input.length + 1) 0

/-- The function `StartsWith(input, substr)`: `false` when
`len(input) < len(substr)`, else `input[:len(substr)] == substr`. -/
def StartsWith (input substr : GoString) : Res Bool :=
  if input.length < substr.length then .ok false
  else (slice input 0 substr.length).bind fun w => .ok (decide (w = substr))

/-- The function `EndsWith(input, substr)`: `false` when
`len(input) < len(substr)`, else `input[len(input)-len(substr):] == substr`. -/
def EndsWith (input substr : GoString) : Res Bool :=
  if input.length < substr.length then .ok false
  else
    (slice input ((input.length : Int) - (substr.length : Int)) input.length).bind fun w =>
      .ok (decide (w = substr))

/-! ## `IsAlpha`, `IsDigit` -/

/-- The loop of `IsAlpha`: `false` at the first rune that is not a letter, `true`
when the runes are used up. Go's `unicode.IsLetter` is library code with
large tables; it is the parameter `isLetter`. -/
def isAlphaLoop (isLetter : Nat → Bool) : List Nat → Bool
  | [] => true
  | r :: rs => if !isLetter r then false else isAlphaLoop isLetter rs

/-- The function `IsAlpha(input)`, for a given `unicode.IsLetter`. -/
def IsAlpha (isLetter : Nat → Bool) (input : GoString) : Bool :=
  isAlphaLoop isLetter (runes input)

/-- Go's `unicode.IsDigit`: in Latin-1 exactly `'0'..'9'`; above Latin-1 the
range table `unicode.Digit` (decimal digits), the parameter `digitTable`. -/
def unicodeIsDigit (digitTable : Nat → Bool) (r : Nat) : Bool :=
  if r ≤ 0xFF then decide (0x30 ≤ r ∧ r ≤ 0x39) else digitTable r

/-- The loop of `IsDigit`: `false` at the first rune that is not a digit, `true`
when the runes are used up. -/
def isDigitLoop (digitTable : Nat → Bool) : List Nat → Bool
  | [] => true
  | r :: rs => if !unicodeIsDigit digitTable r then false else isDigitLoop digitTable rs

/-- The function `IsDigit(input)`, for a given table `unicode.Digit`. -/
def IsDigit (digitTable : Nat → Bool) (input : GoString) : Bool :=
  isDigitLoop digitTable (runes input)

/-! ## `CapitalizeFirstLetter` -/

/-- Go's `unicode.ToUpper` on the runes U+0000..U+00FF, the only ones
`rune(input[0])` can be: ASCII `'a'..'z'` and U+00E0..U+00F6, U+00F8..U+00FE
move down by 32, U+00B5 maps to U+039C, U+00FF to U+0178, every other rune is
unchanged. -/
def unicodeToUpper (r : Nat) : Nat :=
  if r ≤ 0x7F then (if 97 ≤ r ∧ r ≤ 122 then r - (97 - 65) else r)
  else if r = 0xB5 then 0x39C
  else if (0xE0 ≤ r ∧ r ≤ 0xF6) ∨ (0xF8 ≤ r ∧ r ≤ 0xFE) then r - 32
  else if r = 0xFF then 0x178
  else r

/-- The function `CapitalizeFirstLetter(input)`: the value of its own send,
`string(unicode.ToUpper(rune(input[0]))) + Lower(input[1:], result)`, where the
call of `Lower` stands for the string `Lower` sends. The empty input is sent
back as it is. -/
def CapitalizeFirstLetter (input : GoString) : Res GoString :=
  if input.length = 0 then .ok input
  else
    (index input 0).bind fun b =>
      (slice input 1 input.length).bind fun rest =>
        .ok (EncodeRune (unicodeToUpper b.val) ++ Lower rest)

/-- The capitalisation the specification describes, on the code points of the
text: the first code point folded by `Upper`, the remainder by `Lower`; the
empty text stays empty. Written from the specification, to be compared with
`CapitalizeFirstLetter`. -/
def capitalizeRef (input : GoString) : GoString :=
  match runes input with
  | [] => []
  | c :: r => Upper (EncodeRune c) ++ Lower (EncodeRunes r)

/-! ## The result channel -/

/-- The statement `result <- v`, with the channel modelled as the list of the
values written to it. -/
def send {α : Type} (result : List α) (v : α) : List α := result ++ [v]

/-- The function `Lower(input, result)` as it acts on its channel: one send. -/
def LowerOn (input : GoString) (result : List GoString) : List GoString :=
  send result (Lower input)

/-- The function `CapitalizeFirstLetter(input, result)` as it acts on its
channel. On a non-empty input the call `Lower(input[1:], result)` sends on the
same channel, and then the function's own send follows. -/
def CapitalizeFirstLetterOn (input : GoString) (result : List GoString) :
    Res (List GoString) :=
  if input.length = 0 then .ok (send result input)
  else
    (index input 0).bind fun b =>
      (slice input 1 input.length).bind fun rest =>
        .ok (send (LowerOn rest result) (EncodeRune (unicodeToUpper b.val) ++ Lower rest))

/-! ## Reference for `Split` with a one-byte separator -/

/-- The segments of a text cut at every occurrence of the byte `c`, scanning
the rest of the text with the current segment `cur` collected so far: a
segment ends at each `c` (empty segments included); the final segment, after
the last `c`, is included only when it is non-empty. Written from the
specification, to be compared with `Split`. -/
def splitSegments (c : Byte) : GoString → GoString → List GoString
  | [], cur => if cur = [] then [] else [cur]
  | b :: t, cur =>
    if b = c then cur :: splitSegments c t [] else splitSegments c t (cur ++ [b])

/-- A list of segments without its last segment when that one is empty. -/
def dropEmptyLast (l : List GoString) : List GoString :=
  if l.getLast? = some [] then l.dropLast else l

/-- The string `s` occurs in `t` at byte offset `j`: the window
`t[j : j+len(s)]` lies inside `t` and equals `s`. -/
def OccursAt (t s : GoString) (j : Nat) : Prop :=
  j + s.length ≤ t.length ∧ (t.drop j).take s.length = s

instance (t s : GoString) (j : Nat) : Decidable (OccursAt t s j) := by
  unfold OccursAt; infer_instance

/-! ## UTF-8: decoding what was encoded -/

theorem byteOf_val (n : Nat) : (byteOf n).val = n % 256 := rfl

theorem RuneError_valid : ValidRune RuneError := by decide

theorem DecodeRune_one (s0 : Byte) (rest : GoString) (h0 : s0.val < 0x80) :
    DecodeRune (s0 :: rest) = (s0.val, 1) := by
  simp only [DecodeRune, if_pos h0]

theorem DecodeRune_two (s0 s1 : Byte) (rest : GoString)
    (h0 : 0xC2 ≤ s0.val ∧ s0.val < 0xE0) (h1 : 0x80 ≤ s1.val ∧ s1.val ≤ 0xBF) :
    DecodeRune (s0 :: s1 :: rest) = ((s0.val % 32) * 64 + s1.val % 64, 2) := by
  have e1 : firstSize s0 = 2 := by simp only [firstSize]; split_ifs <;> omega
  have e2 : acceptLo s0 = 0x80 := by simp only [acceptLo]; split_ifs <;> omega
  have e3 : acceptHi s0 = 0xBF := by simp only [acceptHi]; split_ifs <;> omega
  simp only [DecodeRune, e1, e2, e3, List.length_cons]
  repeat (first | rw [if_neg (by omega)] | rw [if_pos (by omega)])

theorem DecodeRune_three (s0 s1 s2 : Byte) (rest : GoString)
    (h0 : 0xE0 ≤ s0.val ∧ s0.val < 0xF0)
    (h1 : acceptLo s0 ≤ s1.val ∧ s1.val ≤ acceptHi s0)
    (h2 : 0x80 ≤ s2.val ∧ s2.val ≤ 0xBF) :
    DecodeRune (s0 :: s1 :: s2 :: rest)
      = ((s0.val % 16) * 4096 + (s1.val % 64) * 64 + s2.val % 64, 3) := by
  have e1 : firstSize s0 = 3 := by simp only [firstSize]; split_ifs <;> omega
  simp only [DecodeRune, e1, List.length_cons]
  repeat (first | rw [if_neg (by omega)] | rw [if_pos (by omega)])

theorem DecodeRune_four (s0 s1 s2 s3 : Byte) (rest : GoString)
    (h0 : 0xF0 ≤ s0.val ∧ s0.val ≤ 0xF4)
    (h1 : acceptLo s0 ≤ s1.val ∧ s1.val ≤ acceptHi s0)
    (h2 : 0x80 ≤ s2.val ∧ s2.val ≤ 0xBF) (h3 : 0x80 ≤ s3.val ∧ s3.val ≤ 0xBF) :
    DecodeRune (s0 :: s1 :: s2 :: s3 :: rest)
      = ((s0.val % 8) * 262144 + (s1.val % 64) * 4096 + (s2.val % 64) * 64 + s3.val % 64, 4) := by
  have e1 : firstSize s0 = 4 := by simp only [firstSize]; split_ifs <;> omega
  simp only [DecodeRune, e1, List.length_cons]
  repeat rw [if_neg (by omega)]

/-- Decoding the encoding of a scalar value gives the value back, with the
width of its encoding. -/
theorem DecodeRune_EncodeRune (r : Nat) (h : ValidRune r) (rest : GoString) :
    DecodeRune (EncodeRune r ++ rest) = (r, (EncodeRune r).length) := by
  unfold ValidRune at h
  unfold EncodeRune
  split_ifs with h1 h2 h3 h4
  · rw [List.singleton_append, DecodeRune_one _ _ (by rw [byteOf_val]; omega), byteOf_val]
    simp only [List.length_cons, List.length_nil, Prod.mk.injEq, and_true]; omega
  · simp only [List.cons_append, List.nil_append]
    rw [DecodeRune_two _ _ _ (by simp only [byteOf_val]; omega) (by simp only [byteOf_val]; omega)]
    simp only [byteOf_val, List.length_cons, List.length_nil, Prod.mk.injEq, and_true]; omega
  · omega
  · simp only [List.cons_append, List.nil_append]
    rw [DecodeRune_three _ _ _ _ (by simp only [byteOf_val]; omega)
      (by simp only [byteOf_val, acceptLo, acceptHi]; split_ifs <;> omega)
      (by simp only [byteOf_val]; omega)]
    simp only [byteOf_val, List.length_cons, List.length_nil, Prod.mk.injEq, and_true]; omega
  · simp only [List.cons_append, List.nil_append]
    rw [DecodeRune_four _ _ _ _ _ (by simp only [byteOf_val]; omega)
      (by simp only [byteOf_val, acceptLo, acceptHi]; split_ifs <;> omega)
      (by simp only [byteOf_val]; omega) (by simp only [byteOf_val]; omega)]
    simp only [byteOf_val, List.length_cons, List.length_nil, Prod.mk.injEq, and_true]; omega

theorem EncodeRune_length_pos (r : Nat) : 0 < (EncodeRune r).length := by
  unfold EncodeRune; split_ifs <;> simp


/-- Every rune the decoder delivers is a scalar value, and on a non-empty
string it consumes at least one byte. -/
theorem DecodeRune_spec (b : Byte) (t : GoString) :
    ValidRune (DecodeRune (b :: t)).1 ∧ 1 ≤ (DecodeRune (b :: t)).2 := by
  rcases t with _ | ⟨s1, _ | ⟨s2, _ | ⟨s3, t⟩⟩⟩ <;>
    simp only [DecodeRune] <;> (try split_ifs) <;>
    (try exact ⟨RuneError_valid, Nat.le_refl 1⟩) <;>
    refine ⟨?_, by omega⟩ <;>
    simp only [firstSize, acceptLo, acceptHi, ValidRune, List.length_cons, List.length_nil] at * <;>
    (have h0 := b.isLt) <;> (try split_ifs at *) <;> omega

theorem rangeRunes_succ_cons (fuel : Nat) (b : Byte) (t : GoString) :
    rangeRunes (fuel + 1) (b :: t)
      = (DecodeRune (b :: t)).1 :: rangeRunes fuel ((b :: t).drop (DecodeRune (b :: t)).2) := rfl

theorem rangeRunes_nil (fuel : Nat) : rangeRunes fuel [] = [] := by
  cases fuel <;> rfl

theorem rangeRunes_fuel (fuel1 fuel2 : Nat) (s : GoString)
    (h1 : s.length ≤ fuel1) (h2 : s.length ≤ fuel2) :
    rangeRunes fuel1 s = rangeRunes fuel2 s := by
  induction fuel1 generalizing fuel2 s with
  | zero =>
    have : s = [] := List.length_eq_zero.mp (by omega)
    subst this
    rw [rangeRunes_nil, rangeRunes_nil]
  | succ n ih =>
    cases s with
    | nil => rw [rangeRunes_nil, rangeRunes_nil]
    | cons b t =>
      cases fuel2 with
      | zero => simp at h2
      | succ m =>
        rw [rangeRunes_succ_cons, rangeRunes_succ_cons]
        have hw := (DecodeRune_spec b t).2
        have hl : ((b :: t).drop (DecodeRune (b :: t)).2).length ≤ t.length := by
          rw [List.length_drop, List.length_cons]; omega
        simp only [List.length_cons] at h1 h2
        rw [ih m _ (by omega) (by omega)]

theorem runes_nil : runes [] = [] := rfl

theorem runes_cons (b : Byte) (t : GoString) :
    runes (b :: t)
      = (DecodeRune (b :: t)).1 :: runes ((b :: t).drop (DecodeRune (b :: t)).2) := by
  unfold runes
  rw [List.length_cons, rangeRunes_succ_cons]
  congr 1
  apply rangeRunes_fuel
  · have hw := (DecodeRune_spec b t).2
    rw [List.length_drop, List.length_cons]; omega
  · exact Nat.le_refl _

theorem rangeRunes_valid (fuel : Nat) (s : GoString) :
    ∀ r ∈ rangeRunes fuel s, ValidRune r := by
  induction fuel generalizing s with
  | zero => intro r hr; simp [rangeRunes] at hr
  | succ n ih =>
    cases s with
    | nil => intro r hr; simp [rangeRunes] at hr
    | cons b t =>
      intro r hr
      rw [rangeRunes_succ_cons, List.mem_cons] at hr
      rcases hr with rfl | hr
      · exact (DecodeRune_spec b t).1
      · exact ih _ r hr

theorem runes_valid (s : GoString) : ∀ r ∈ runes s, ValidRune r :=
  rangeRunes_valid _ s

theorem runes_EncodeRune_append (r : Nat) (h : ValidRune r) (s : GoString) :
    runes (EncodeRune r ++ s) = r :: runes s := by
  have hpos := EncodeRune_length_pos r
  cases he : EncodeRune r with
  | nil => rw [he] at hpos; simp at hpos
  | cons b t =>
    rw [List.cons_append, runes_cons, ← List.cons_append, ← he, DecodeRune_EncodeRune r h s]
    simp only [List.drop_left]

theorem EncodeRunes_nil : EncodeRunes [] = [] := rfl

theorem EncodeRunes_cons (r : Nat) (rs : List Nat) :
    EncodeRunes (r :: rs) = EncodeRune r ++ EncodeRunes rs := rfl

theorem EncodeRunes_append (xs ys : List Nat) :
    EncodeRunes (xs ++ ys) = EncodeRunes xs ++ EncodeRunes ys := by
  simp [EncodeRunes]

theorem runes_EncodeRunes_append (rs : List Nat) (h : ∀ r ∈ rs, ValidRune r) (s : GoString) :
    runes (EncodeRunes rs ++ s) = rs ++ runes s := by
  induction rs with
  | nil => rfl
  | cons r rs ih =>
    rw [EncodeRunes_cons, List.append_assoc,
      runes_EncodeRune_append r (h r (List.mem_cons_self _ _)),
      ih (fun x hx => h x (List.mem_cons_of_mem _ hx)), List.cons_append]

/-- The conversions `[]rune(string(rs))` give `rs` back when every rune of `rs`
is a scalar value. -/
theorem runes_EncodeRunes (rs : List Nat) (h : ∀ r ∈ rs, ValidRune r) :
    runes (EncodeRunes rs) = rs := by
  have := runes_EncodeRunes_append rs h []
  rwa [List.append_nil, runes_nil, List.append_nil] at this

/-! ## `Lower` and `Upper` -/

theorem foldl_append_map (p : Nat → Prop) [DecidablePred p] (f : Nat → Nat)
    (l init : List Nat) :
    l.foldl (fun transformed char =>
        if p char then transformed ++ [f char] else transformed ++ [char]) init
      = init ++ l.map (fun char => if p char then f char else char) := by
  induction l generalizing init with
  | nil => simp
  | cons c l ih =>
    rw [List.foldl_cons, ih, List.map_cons]
    split_ifs <;> simp

theorem Lower_eq (input : GoString) :
    Lower input
      = EncodeRunes ((runes input).map fun c => if 65 ≤ c ∧ c ≤ 90 then c + 32 else c) := by
  unfold Lower
  have hf : (fun c : Nat => if 65 ≤ c ∧ c ≤ 90 then c + 97 - 65 else c)
      = fun c => if 65 ≤ c ∧ c ≤ 90 then c + 32 else c := by
    funext c; split_ifs <;> omega
  rw [foldl_append_map (fun c => 65 ≤ c ∧ c ≤ 90) (fun c => c + 97 - 65), List.nil_append, hf]

theorem Upper_eq (input : GoString) :
    Upper input
      = EncodeRunes ((runes input).map fun c => if 97 ≤ c ∧ c ≤ 122 then c - 32 else c) := by
  unfold Upper
  have hf : (fun c : Nat => if 97 ≤ c ∧ c ≤ 122 then c - 97 + 65 else c)
      = fun c => if 97 ≤ c ∧ c ≤ 122 then c - 32 else c := by
    funext c; split_ifs <;> omega
  rw [foldl_append_map (fun c => 97 ≤ c ∧ c ≤ 122) (fun c => c - 97 + 65), List.nil_append, hf]

theorem runes_Lower (input : GoString) :
    runes (Lower input) = (runes input).map fun c => if 65 ≤ c ∧ c ≤ 90 then c + 32 else c := by
  rw [Lower_eq]
  apply runes_EncodeRunes
  intro r hr
  rw [List.mem_map] at hr
  obtain ⟨c, hc, rfl⟩ := hr
  have hv := runes_valid input c hc
  unfold ValidRune at *
  split_ifs <;> omega

theorem runes_Upper (input : GoString) :
    runes (Upper input) = (runes input).map fun c => if 97 ≤ c ∧ c ≤ 122 then c - 32 else c := by
  rw [Upper_eq]
  apply runes_EncodeRunes
  intro r hr
  rw [List.mem_map] at hr
  obtain ⟨c, hc, rfl⟩ := hr
  have hv := runes_valid input c hc
  unfold ValidRune at *
  split_ifs <;> omega

/-- C9: for every text `T`, with its code points read as `range` reads them
(`runes T`): `Lower T` is the encoding of the code points of `T` with
`c + ('a' - 'A')` in place of every `c` in `'A'..'Z'` and every other code point
unchanged, and decoding `Lower T` gives exactly these code points, as many as
`T` has; symmetrically `Upper T` maps exactly the code points in `'a'..'z'` to
`c - ('a' - 'A')`. Code points outside the ASCII letters, so all non-ASCII
ones, are unchanged. -/
theorem C9_Lower_Upper_code_points (T : GoString) :
    (Lower T = EncodeRunes ((runes T).map fun c => if 65 ≤ c ∧ c ≤ 90 then c + (97 - 65) else c)
      ∧ runes (Lower T) = (runes T).map (fun c => if 65 ≤ c ∧ c ≤ 90 then c + (97 - 65) else c)
      ∧ (runes (Lower T)).length = (runes T).length)
    ∧ (Upper T = EncodeRunes ((runes T).map fun c => if 97 ≤ c ∧ c ≤ 122 then c - (97 - 65) else c)
      ∧ runes (Upper T) = (runes T).map (fun c => if 97 ≤ c ∧ c ≤ 122 then c - (97 - 65) else c)
      ∧ (runes (Upper T)).length = (runes T).length) := by
  refine ⟨⟨Lower_eq T, runes_Lower T, ?_⟩, ⟨Upper_eq T, runes_Upper T, ?_⟩⟩
  · rw [runes_Lower, List.length_map]
  · rw [runes_Upper, List.length_map]

/-- C10: `Lower` and `Upper` are idempotent: for every text `T`,
`Lower (Lower T) = Lower T` and `Upper (Upper T) = Upper T`. -/
theorem C10_Lower_Upper_idempotent (T : GoString) :
    Lower (Lower T) = Lower T ∧ Upper (Upper T) = Upper T := by
  constructor
  · rw [Lower_eq (Lower T), runes_Lower, Lower_eq, List.map_map]
    congr 1
    apply List.map_congr_left
    intro c _
    simp only [Function.comp]
    split_ifs <;> omega
  · rw [Upper_eq (Upper T), runes_Upper, Upper_eq, List.map_map]
    congr 1
    apply List.map_congr_left
    intro c _
    simp only [Function.comp]
    split_ifs <;> omega

/-! ## `Strip` -/

theorem index_append_cons (pre : GoString) (b : Byte) (t : GoString) (i : Int)
    (hi : i = (pre.length : Int)) : index (pre ++ b :: t) i = .ok b := by
  subst hi
  unfold index
  rw [if_pos (by omega)]
  have h : (pre ++ b :: t).get? (pre.length : Int).toNat = some b := by
    rw [Int.toNat_ofNat, List.get?_eq_getElem?, List.getElem?_append_right (Nat.le_refl _),
      Nat.sub_self, List.getElem?_cons_zero]
  rw [h]

theorem stripLeading_unfold (input : GoString) (fuel : Nat) (start endIdx : Int) :
    stripLeading input fuel start endIdx =
      if start ≤ endIdx then
        (index input start).bind fun b =>
          if isSpaceByte b then
            match fuel with
            | 0 => .outOfFuel
            | fuel + 1 => stripLeading input fuel (start + 1) endIdx
          else .ok start
      else .ok start := by
  cases fuel <;> rfl

theorem stripLeading_spec (suf : GoString) :
    ∀ (pre : GoString) (fuel : Nat) (input : GoString) (start endIdx : Int),
      input = pre ++ suf → start = (pre.length : Int) → endIdx = (input.length : Int) - 1 →
      suf.length ≤ fuel →
      stripLeading input fuel start endIdx
        = .ok (start + ((suf.takeWhile isSpaceByte).length : Int)) := by
  induction suf with
  | nil =>
    intro pre fuel input start endIdx hin hs he hf
    subst hin
    rw [stripLeading_unfold, if_neg (by simp at he; omega)]
    simp
  | cons b t ih =>
    intro pre fuel input start endIdx hin hs he hf
    subst hin
    have hlen : ((pre ++ b :: t).length : Int) = pre.length + t.length + 1 := by
      simp; omega
    rw [stripLeading_unfold, if_pos (by omega), index_append_cons pre b t _ hs]
    simp only [Res.bind]
    by_cases hb : isSpaceByte b = true
    · rw [if_pos hb]
      cases fuel with
      | zero => simp at hf
      | succ f =>
        simp only
        rw [ih (pre ++ [b]) f (pre ++ b :: t) (start + 1) endIdx (by simp)
          (by simp; omega) he (by simpa using hf), List.takeWhile_cons_of_pos hb]
        simp only [List.length_cons]
        congr 1
        push_cast
        ring
    · rw [if_neg hb, List.takeWhile_cons_of_neg hb]
      simp

theorem stripTrailing_unfold (input : GoString) (fuel : Nat) (start endIdx : Int) :
    stripTrailing input fuel start endIdx =
      if endIdx ≥ start then
        (index input endIdx).bind fun b =>
          if isSpaceByte b then
            match fuel with
            | 0 => .outOfFuel
            | fuel + 1 => stripTrailing input fuel start (endIdx - 1)
          else .ok endIdx
      else .ok endIdx := by
  cases fuel <;> rfl

theorem stripTrailing_spec (pre mid : GoString) :
    ∀ (suf : GoString) (fuel : Nat) (input : GoString) (start endIdx : Int),
      input = pre ++ mid ++ suf → start = (pre.length : Int) →
      endIdx = (pre.length : Int) + (mid.length : Int) - 1 → mid.length ≤ fuel →
      stripTrailing input fuel start endIdx
        = .ok (start + ((mid.rdropWhile isSpaceByte).length : Int) - 1) := by
  induction mid using List.reverseRecOn with
  | nil =>
    intro suf fuel input start endIdx hin hs he hf
    rw [stripTrailing_unfold, if_neg (by simp at he; omega)]
    simp [he, hs]
  | append_singleton m b ih =>
    intro suf fuel input start endIdx hin hs he hf
    subst hin
    have hidx : index (pre ++ (m ++ [b]) ++ suf) endIdx = .ok b := by
      have : pre ++ (m ++ [b]) ++ suf = (pre ++ m) ++ b :: suf := by simp
      rw [this]
      exact index_append_cons (pre ++ m) b suf _ (by simp at he ⊢; omega)
    rw [stripTrailing_unfold, if_pos (by simp at he; omega), hidx]
    simp only [Res.bind]
    by_cases hb : isSpaceByte b = true
    · rw [if_pos hb]
      cases fuel with
      | zero => simp at hf
      | succ f =>
        simp only
        rw [ih (b :: suf) f _ start (endIdx - 1) (by simp) hs (by simp at he; omega)
          (by simp at hf; omega), List.rdropWhile_concat_pos _ _ _ hb]
    · rw [if_neg hb, List.rdropWhile_concat_neg _ _ _ hb]
      congr 1
      simp at he ⊢
      omega

/-- What `Strip` computes: the text without its leading and its trailing bytes
that are white space when taken as runes. It never faults. -/
theorem Strip_eq (T : GoString) :
    Strip T = .ok ((T.dropWhile isSpaceByte).rdropWhile isSpaceByte) := by
  unfold Strip
  rw [stripLeading_spec T [] T.length T 0 _ rfl rfl rfl (Nat.le_refl _)]
  simp only [Res.bind, zero_add]
  have hT : T = T.takeWhile isSpaceByte ++ T.dropWhile isSpaceByte ++ [] := by
    simp [List.takeWhile_append_dropWhile]
  have hlen : T.length = (T.takeWhile isSpaceByte).length + (T.dropWhile isSpaceByte).length := by
    have := congrArg List.length (List.takeWhile_append_dropWhile isSpaceByte T)
    rw [List.length_append] at this
    omega
  rw [stripTrailing_spec (T.takeWhile isSpaceByte) (T.dropWhile isSpaceByte) [] T.length T _ _
    hT rfl (by omega) (by omega)]
  simp only
  unfold slice
  have hpre := List.rdropWhile_prefix isSpaceByte (T.dropWhile isSpaceByte)
  have hle := hpre.length_le
  rw [if_pos (by omega)]
  congr 1
  have h1 : ((T.takeWhile isSpaceByte).length : Int).toNat = (T.takeWhile isSpaceByte).length := by
    simp
  have h2 : (((T.takeWhile isSpaceByte).length : Int)
      + (((T.dropWhile isSpaceByte).rdropWhile isSpaceByte).length : Int) - 1 + 1
      - ((T.takeWhile isSpaceByte).length : Int)).toNat
      = ((T.dropWhile isSpaceByte).rdropWhile isSpaceByte).length := by
    omega
  rw [h1, h2]
  have h3 : T.drop (T.takeWhile isSpaceByte).length = T.dropWhile isSpaceByte := by
    have := List.drop_left (T.takeWhile isSpaceByte) (T.dropWhile isSpaceByte)
    rwa [List.takeWhile_append_dropWhile] at this
  rw [h3]
  exact (List.prefix_iff_eq_take.mp hpre).symm

theorem Strip_idem_aux (T : GoString) :
    (((T.dropWhile isSpaceByte).rdropWhile isSpaceByte).dropWhile isSpaceByte).rdropWhile
        isSpaceByte
      = (T.dropWhile isSpaceByte).rdropWhile isSpaceByte := by
  have hd : ((T.dropWhile isSpaceByte).rdropWhile isSpaceByte).dropWhile isSpaceByte
      = (T.dropWhile isSpaceByte).rdropWhile isSpaceByte := by
    have hpre := List.rdropWhile_prefix isSpaceByte (T.dropWhile isSpaceByte)
    cases hr : (T.dropWhile isSpaceByte).rdropWhile isSpaceByte with
    | nil => rfl
    | cons x r =>
      rw [hr] at hpre
      obtain ⟨u, hu⟩ := hpre
      have hx : ¬ isSpaceByte x = true := by
        have := List.head_dropWhile_not isSpaceByte T (by rw [← hu]; simp)
        simpa [← hu] using this
      rw [List.dropWhile_cons_of_neg hx]
  rw [hd, List.rdropWhile_idempotent]

/-- C8: `Strip` is idempotent: for every text `T`, `Strip T` delivers a
string `r`, and `Strip r` delivers `r` again. -/
theorem C8_Strip_idempotent (T : GoString) :
    ∃ r, Strip T = .ok r ∧ Strip r = .ok r := by
  refine ⟨_, Strip_eq T, ?_⟩
  rw [Strip_eq, Strip_idem_aux]

/-! ## `Split`: the loop invariant -/

theorem splitLoop_unfold (input separator : GoString) (fuel : Nat) (i start : Int)
    (resultSlice : List GoString) :
    splitLoop input separator fuel i start resultSlice =
      if i < (input.length : Int) then
        match fuel with
        | 0 => .outOfFuel
        | fuel + 1 =>
          (slice input i (i + separator.length)).bind fun w =>
            if w = separator then
              (slice input start i).bind fun seg =>
                splitLoop input separator fuel ((i + ((separator.length : Int) - 1)) + 1)
                  (i + separator.length) (resultSlice ++ [seg])
            else splitLoop input separator fuel (i + 1) start resultSlice
      else .ok (start, resultSlice) := by
  cases fuel <;> rfl

theorem slice_nat (s : GoString) (lo hi : Nat) (h1 : lo ≤ hi) (h2 : hi ≤ s.length) :
    slice s (lo : Int) (hi : Int) = .ok ((s.drop lo).take (hi - lo)) := by
  unfold slice
  rw [if_pos (by omega)]
  congr 2
  omega

theorem slice_fault (s : GoString) (lo hi : Int) (h : (s.length : Int) < hi) :
    slice s lo hi = .fault := by
  unfold slice
  rw [if_neg (by omega)]

theorem take_append_drop_take (s : GoString) (a b : Nat) (h : a ≤ b) :
    s.take a ++ (s.drop a).take (b - a) = s.take b := by
  have e : b = a + (b - a) := by omega
  conv_rhs => rw [e, List.take_add]

theorem splitLoop_inv (T S : GoString) (fuel : Nat) :
    ∀ (i start : Nat) (acc : List GoString) (r : Int × List GoString),
      splitLoop T S fuel (i : Int) (start : Int) acc = .ok r →
      start ≤ i → i ≤ T.length →
      acc.flatMap (fun x => x ++ S) = T.take start →
      (start = 0 ∨ S <:+ T.take start) →
      (i = start ∨ i + S.length ≤ T.length + 1) →
      ∃ start' : Nat, r.1 = (start' : Int) ∧ start' ≤ T.length
        ∧ r.2.flatMap (fun x => x ++ S) = T.take start'
        ∧ (start' = 0 ∨ S <:+ T.take start')
        ∧ (start' = T.length ∨ S.length ≤ 1) := by
  induction fuel with
  | zero =>
    intro i start acc r h hsi hin hacc hsuf hwin
    rw [splitLoop_unfold] at h
    by_cases hi : (i : Int) < (T.length : Int)
    · rw [if_pos hi] at h; simp at h
    · rw [if_neg hi] at h
      injection h with h
      subst h
      refine ⟨start, rfl, by omega, hacc, hsuf, ?_⟩
      rcases hwin with h | h <;> omega
  | succ f ih =>
    intro i start acc r h hsi hin hacc hsuf hwin
    rw [splitLoop_unfold] at h
    by_cases hi : (i : Int) < (T.length : Int)
    · rw [if_pos hi] at h
      simp only at h
      by_cases hb : i + S.length ≤ T.length
      · have hsl : slice T (i : Int) ((i : Int) + (S.length : Int))
            = .ok ((T.drop i).take S.length) := by
          have := slice_nat T i (i + S.length) (by omega) hb
          rw [Nat.add_sub_cancel_left] at this
          rw [← this]; push_cast; rfl
        rw [hsl] at h
        simp only [Res.bind] at h
        by_cases hw : (T.drop i).take S.length = S
        · rw [if_pos hw, slice_nat T start i hsi (by omega)] at h
          simp only at h
          have e1 : (i : Int) + ((S.length : Int) - 1) + 1 = ((i + S.length : Nat) : Int) := by
            push_cast; ring
          have e2 : (i : Int) + (S.length : Int) = ((i + S.length : Nat) : Int) := by
            push_cast; ring
          rw [e1, e2] at h
          have htk : T.take (i + S.length) = T.take i ++ S := by
            rw [List.take_add, hw]
          refine ih (i + S.length) (i + S.length) _ r h (Nat.le_refl _) hb ?_ ?_ (Or.inl rfl)
          · rw [List.flatMap_append, hacc, htk]
            simp only [List.flatMap_cons, List.flatMap_nil, List.append_nil]
            rw [← List.append_assoc, take_append_drop_take T start i hsi]
          · right
            rw [htk]
            exact List.suffix_append _ _
        · rw [if_neg hw] at h
          have e1 : (i : Int) + 1 = ((i + 1 : Nat) : Int) := by push_cast; ring
          rw [e1] at h
          exact ih (i + 1) start acc r h (by omega) (by omega) hacc hsuf (Or.inr (by omega))
      · rw [slice_fault T _ _ (by omega)] at h
        simp [Res.bind] at h
    · rw [if_neg hi] at h
      injection h with h
      subst h
      refine ⟨start, rfl, by omega, hacc, hsuf, ?_⟩
      rcases hwin with h | h <;> omega


/-- When `Split` completes on a text that does not end with the separator,
either the text is empty and so is the result, or the separator is one byte
long and the text is the segments with the separator between them. -/
theorem Split_bytes (fuel : Nat) (T S : GoString) (segs : List GoString) (hS : S ≠ [])
    (h : Split fuel T S = .ok segs) (hend : ¬ S <:+ T) :
    (T = [] ∧ segs = []) ∨
    (S.length = 1 ∧ ∃ acc last, segs = acc ++ [last]
      ∧ T = acc.flatMap (fun x => x ++ S) ++ last) := by
  unfold Split at h
  cases hl : splitLoop T S fuel 0 0 [] with
  | fault => rw [hl] at h; simp [Res.bind] at h
  | outOfFuel => rw [hl] at h; simp [Res.bind] at h
  | ok r =>
    rw [hl] at h
    simp only [Res.bind] at h
    have hl2 : splitLoop T S fuel ((0 : Nat) : Int) ((0 : Nat) : Int) [] = .ok r := hl
    obtain ⟨st, hst, hle, hacc, hsuf, hk⟩ :=
      splitLoop_inv T S fuel 0 0 [] r hl2 (Nat.le_refl _) (Nat.zero_le _) (by simp)
        (Or.inl rfl) (Or.inl rfl)
    have hSpos : 0 < S.length := List.length_pos.mpr hS
    rw [hst] at h
    by_cases hlt : (st : Int) < (T.length : Int)
    · rw [if_pos hlt, slice_nat T st T.length (by omega) (Nat.le_refl _)] at h
      simp only at h
      injection h with h
      right
      refine ⟨by omega, r.2, _, h.symm, ?_⟩
      rw [hacc, take_append_drop_take T st T.length (by omega), List.take_length]
    · rw [if_neg hlt] at h
      injection h with h
      have hst2 : st = T.length := by omega
      subst hst2
      rw [List.take_length] at hacc hsuf
      rcases hsuf with h0 | hsuf
      · left
        have hT : T = [] := List.length_eq_zero.mp h0
        refine ⟨hT, ?_⟩
        rw [← h]
        rw [hT] at hacc
        cases hr : r.2 with
        | nil => rfl
        | cons x xs =>
          rw [hr] at hacc
          simp [hS] at hacc
      · exact absurd hsuf hend

theorem splitLoop_total (T : GoString) (c : Byte) (fuel : Nat) :
    ∀ (i start : Nat) (acc : List GoString), start ≤ i → i ≤ T.length → T.length ≤ fuel + i →
      ∃ r, splitLoop T [c] fuel (i : Int) (start : Int) acc = .ok r := by
  induction fuel with
  | zero =>
    intro i start acc hsi hi hf
    rw [splitLoop_unfold, if_neg (by omega)]
    exact ⟨_, rfl⟩
  | succ f ih =>
    intro i start acc hsi hi hf
    rw [splitLoop_unfold]
    by_cases hlt : (i : Int) < (T.length : Int)
    · rw [if_pos hlt]
      simp only [List.length_singleton, Nat.cast_one]
      have hs : slice T (i : Int) ((i : Int) + 1) = .ok ((T.drop i).take 1) := by
        have := slice_nat T i (i + 1) (by omega) (by omega)
        rw [Nat.add_sub_cancel_left] at this
        rw [← this]; push_cast; rfl
      rw [hs]
      simp only [Res.bind]
      have e1 : (i : Int) + (1 - 1) + 1 = ((i + 1 : Nat) : Int) := by push_cast; ring
      have e2 : (i : Int) + 1 = ((i + 1 : Nat) : Int) := by push_cast; ring
      by_cases hw : (T.drop i).take 1 = [c]
      · rw [if_pos hw, slice_nat T start i hsi (by omega)]
        simp only
        rw [e1, e2]
        exact ih (i + 1) (i + 1) _ (Nat.le_refl _) (by omega) (by omega)
      · rw [if_neg hw, e2]
        exact ih (i + 1) start acc (by omega) (by omega) (by omega)
    · rw [if_neg hlt]
      exact ⟨_, rfl⟩

/-- With a one-byte separator `Split` completes, given fuel for `len(T)`
iterations. -/
theorem Split_total (T : GoString) (c : Byte) (fuel : Nat) (hf : T.length ≤ fuel) :
    ∃ segs, Split fuel T [c] = .ok segs := by
  obtain ⟨r, hr⟩ := splitLoop_total T c fuel 0 0 [] (Nat.le_refl _) (Nat.zero_le _) (by omega)
  have hr2 : splitLoop T [c] fuel 0 0 [] = .ok r := hr
  obtain ⟨st, hst, hle, -, -, -⟩ :=
    splitLoop_inv T [c] fuel 0 0 [] r hr (Nat.le_refl _) (Nat.zero_le _) (by simp)
      (Or.inl rfl) (Or.inl rfl)
  unfold Split
  rw [hr2]
  simp only [Res.bind, hst]
  by_cases hlt : (st : Int) < (T.length : Int)
  · rw [if_pos hlt, slice_nat T st T.length (by omega) (Nat.le_refl _)]
    exact ⟨_, rfl⟩
  · rw [if_neg hlt]
    exact ⟨_, rfl⟩

/-! ## Valid UTF-8 and ASCII separators -/

/-- Valid UTF-8 strings are exactly the encodings of sequences of scalar
values. -/
theorem ValidUTF8_iff (s : GoString) :
    ValidUTF8 s ↔ ∃ rs : List Nat, (∀ r ∈ rs, ValidRune r) ∧ s = EncodeRunes rs := by
  constructor
  · intro h
    exact ⟨runes s, runes_valid s, h.symm⟩
  · rintro ⟨rs, hv, rfl⟩
    unfold ValidUTF8
    rw [runes_EncodeRunes rs hv]

theorem EncodeRune_bytes (r : Nat) :
    (r ≤ 0x7F ∧ EncodeRune r = [byteOf r]) ∨ ∀ b ∈ EncodeRune r, 0x80 ≤ b.val := by
  unfold EncodeRune
  split_ifs with h1 h2 h3 h4
  · exact Or.inl ⟨h1, rfl⟩
  · right
    simp only [List.forall_mem_cons, List.not_mem_nil, false_implies, implies_true, and_true,
      byteOf_val]
    omega
  · right
    intro b hb
    simp only [List.mem_cons, List.mem_singleton, List.not_mem_nil, or_false] at hb
    rcases hb with rfl | rfl | rfl <;> decide
  · right
    simp only [List.forall_mem_cons, List.not_mem_nil, false_implies, implies_true, and_true,
      byteOf_val]
    omega
  · right
    simp only [List.forall_mem_cons, List.not_mem_nil, false_implies, implies_true, and_true,
      byteOf_val]
    omega

theorem EncodeRune_ascii_mem (r : Nat) (c : Byte) (hc : c.val < 0x80)
    (hm : c ∈ EncodeRune r) : EncodeRune r = [c] := by
  rcases EncodeRune_bytes r with ⟨_, h⟩ | h
  · rw [h] at hm ⊢
    rw [List.mem_singleton] at hm
    rw [hm]
  · have := h c hm
    omega

theorem ValidUTF8_nil : ValidUTF8 [] := rfl

theorem ValidUTF8_split_aux (rs : List Nat) :
    ∀ (a : GoString) (c : Byte) (b : GoString), c.val < 0x80 →
      (∀ r ∈ rs, ValidRune r) → EncodeRunes rs = a ++ c :: b →
      ValidUTF8 a ∧ ValidUTF8 b := by
  induction rs with
  | nil =>
    intro a c b _ _ h
    rw [EncodeRunes_nil] at h
    simp at h
  | cons r rs ih =>
    intro a c b hc hv h
    have hr := hv r (List.mem_cons_self _ _)
    have hrs : ∀ x ∈ rs, ValidRune x := fun x hx => hv x (List.mem_cons_of_mem _ hx)
    rw [EncodeRunes_cons, List.append_eq_append_iff] at h
    rcases h with ⟨a', ha, hb⟩ | ⟨c', hr', hb⟩
    · obtain ⟨h1, h2⟩ := ih a' c b hc hrs hb
      refine ⟨?_, h2⟩
      rw [ValidUTF8_iff] at h1 ⊢
      obtain ⟨rs1, hv1, rfl⟩ := h1
      refine ⟨r :: rs1, ?_, by rw [ha, EncodeRunes_cons]⟩
      intro x hx
      rcases List.mem_cons.mp hx with rfl | hx
      · exact hr
      · exact hv1 x hx
    · cases c' with
      | nil =>
        rw [List.nil_append] at hb
        rw [List.append_nil] at hr'
        refine ⟨?_, ?_⟩
        · rw [ValidUTF8_iff]
          refine ⟨[r], ?_, by rw [← hr', EncodeRunes_cons, EncodeRunes_nil, List.append_nil]⟩
          intro x hx
          rw [List.mem_singleton.mp hx]; exact hr
        · exact (ih [] c b hc hrs (by rw [← hb, List.nil_append])).2
      | cons x c'' =>
        rw [List.cons_append] at hb
        injection hb with hx hb
        subst hx
        have hmem : c ∈ EncodeRune r := by rw [hr']; simp
        have h1 := EncodeRune_ascii_mem r c hc hmem
        rw [h1] at hr'
        have hlen := congrArg List.length hr'
        simp only [List.length_cons, List.length_nil, List.length_append] at hlen
        have ha : a = [] := List.length_eq_zero.mp (by omega)
        have hc'' : c'' = [] := List.length_eq_zero.mp (by omega)
        subst ha hc''
        refine ⟨ValidUTF8_nil, ?_⟩
        rw [ValidUTF8_iff]
        exact ⟨rs, hrs, by rw [hb, List.nil_append]⟩

/-- Cutting a valid UTF-8 string at an ASCII byte leaves two valid UTF-8
strings. -/
theorem ValidUTF8_split (a : GoString) (c : Byte) (b : GoString) (hc : c.val < 0x80)
    (h : ValidUTF8 (a ++ c :: b)) : ValidUTF8 a ∧ ValidUTF8 b := by
  obtain ⟨rs, hv, he⟩ := (ValidUTF8_iff _).mp h
  exact ValidUTF8_split_aux rs a c b hc hv he.symm

theorem ValidUTF8_singleton (c : Byte) (h : ValidUTF8 [c]) : c.val < 0x80 := by
  unfold ValidUTF8 at h
  rw [runes_cons] at h
  by_contra hc
  have h2 : (DecodeRune [c]) = (RuneError, 1) := by
    simp only [DecodeRune, if_neg hc, List.length_cons, List.length_nil, firstSize]
    split_ifs <;> rfl
  rw [h2] at h
  simp only [List.drop_succ_cons, List.drop_zero, runes_nil, EncodeRunes_cons,
    EncodeRunes_nil] at h
  have e : (EncodeRune RuneError).length = 3 := by decide
  have := congrArg List.length h
  simp only [List.append_nil, List.length_cons, List.length_nil, e] at this
  omega

theorem ValidUTF8_segments (c : Byte) (hc : c.val < 0x80) (acc : List GoString) :
    ∀ last : GoString, ValidUTF8 (acc.flatMap (fun x => x ++ [c]) ++ last) →
      (∀ x ∈ acc, ValidUTF8 x) ∧ ValidUTF8 last := by
  induction acc with
  | nil =>
    intro last h
    refine ⟨by simp, by simpa using h⟩
  | cons a acc ih =>
    intro last h
    rw [List.flatMap_cons, List.append_assoc, List.append_assoc, List.singleton_append] at h
    obtain ⟨h1, h2⟩ := ValidUTF8_split a c _ hc h
    obtain ⟨h3, h4⟩ := ih last h2
    refine ⟨?_, h4⟩
    intro x hx
    rcases List.mem_cons.mp hx with rfl | hx
    · exact h1
    · exact h3 x hx

/-! ## `Join` and the round trip -/

theorem joinLoop_sep (separator : GoString) (elements : List GoString) :
    ∀ (i : Nat) (rs : List Nat), 0 < i →
      joinLoop separator elements i rs
        = rs ++ elements.flatMap (fun e => runes separator ++ runes e) := by
  induction elements with
  | nil => intro i rs _; simp [joinLoop]
  | cons e rest ih =>
    intro i rs hi
    rw [joinLoop, if_pos hi, ih (i + 1) _ (Nat.succ_pos _)]
    simp

theorem Join_cons (e : GoString) (rest : List GoString) (separator : GoString) :
    Join (e :: rest) separator
      = EncodeRunes (runes e) ++ rest.flatMap
          (fun x => EncodeRunes (runes separator) ++ EncodeRunes (runes x)) := by
  unfold Join
  rw [joinLoop, if_neg (by omega), joinLoop_sep _ _ _ _ (by omega)]
  simp only [List.nil_append, EncodeRunes_append]
  congr 1
  induction rest with
  | nil => rfl
  | cons x xs ih =>
    rw [List.flatMap_cons, List.flatMap_cons, EncodeRunes_append, EncodeRunes_append, ih]

theorem Join_nil (separator : GoString) : Join [] separator = [] := rfl

/-- On valid UTF-8 segments and separator, `Join` is concatenation with the
separator in between. -/
theorem Join_valid (acc : List GoString) (last S : GoString)
    (hacc : ∀ x ∈ acc, ValidUTF8 x) (hlast : ValidUTF8 last) (hS : ValidUTF8 S) :
    Join (acc ++ [last]) S = acc.flatMap (fun x => x ++ S) ++ last := by
  have key : ∀ (l : List GoString), (∀ x ∈ l, ValidUTF8 x) →
      (l ++ [last]).flatMap (fun x => EncodeRunes (runes S) ++ EncodeRunes (runes x))
        = S ++ l.flatMap (fun x => x ++ S) ++ last := by
    intro l
    induction l with
    | nil =>
      intro _
      simp only [List.nil_append, List.flatMap_cons, List.flatMap_nil, List.append_nil]
      rw [hS, hlast]
    | cons a l ih =>
      intro hl
      rw [List.cons_append, List.flatMap_cons, ih (fun x hx => hl x (List.mem_cons_of_mem _ hx)),
        List.flatMap_cons, hS, hl a (List.mem_cons_self _ _)]
      simp only [List.append_assoc]
  cases acc with
  | nil =>
    rw [List.nil_append, Join_cons]
    simp only [List.flatMap_nil, List.append_nil, List.nil_append]
    exact hlast
  | cons a acc =>
    rw [List.cons_append, Join_cons, key acc (fun x hx => hacc x (List.mem_cons_of_mem _ hx)),
      hacc a (List.mem_cons_self _ _), List.flatMap_cons]
    simp only [List.append_assoc]

/-- C3 (amended): for every valid UTF-8 text `T` and every non-empty valid
UTF-8 separator `S` such that `T` does not end with `S`: whenever `Split T S`
completes, delivering `segs`, `Join segs S = T`; and when `S` is one byte long,
`Split T S` does complete, given fuel for `len(T)` iterations, so that the
round trip `Join (Split T S) S = T` holds. -/
theorem C3_Join_Split_roundtrip (T S : GoString)
    (hS : S ≠ []) (hT : ValidUTF8 T) (hSv : ValidUTF8 S) (hend : ¬ S <:+ T) :
    (∀ fuel segs, Split fuel T S = .ok segs → Join segs S = T)
    ∧ (S.length = 1 → ∀ fuel, T.length ≤ fuel →
        ∃ segs, Split fuel T S = .ok segs ∧ Join segs S = T) := by
  have part : ∀ fuel segs, Split fuel T S = .ok segs → Join segs S = T := by
    intro fuel segs hsplit
    rcases Split_bytes fuel T S segs hS hsplit hend with
      ⟨hT0, hs0⟩ | ⟨hlen, acc, last, hsegs, hTeq⟩
    · rw [hs0, hT0]; rfl
    · obtain ⟨c, rfl⟩ := List.length_eq_one.mp hlen
      have hc := ValidUTF8_singleton c hSv
      rw [hTeq] at hT
      obtain ⟨h1, h2⟩ := ValidUTF8_segments c hc acc last hT
      rw [hsegs, hTeq]
      exact Join_valid acc last [c] h1 h2 hSv
  refine ⟨part, ?_⟩
  intro hlen fuel hfuel
  obtain ⟨c, rfl⟩ := List.length_eq_one.mp hlen
  obtain ⟨segs, hsegs⟩ := Split_total T c fuel hfuel
  exact ⟨segs, hsegs, part fuel segs hsegs⟩

/-- C3, concrete case: `Split("a,b,c", ",")` delivers `["a","b","c"]`, and
`Join(["a","b","c"], ",") = "a,b,c"`. -/
theorem C3_Join_Split_roundtrip_witness :
    Split 5 (str "a,b,c") (str ",") = .ok [str "a", str "b", str "c"]
    ∧ Join [str "a", str "b", str "c"] (str ",") = str "a,b,c" :=
  ⟨by decide,
   (C3_Join_Split_roundtrip (str "a,b,c") (str ",") (by decide) (by decide) (by decide)
      (by decide)).1 5 [str "a", str "b", str "c"] (by decide)⟩

/-! ## More fuel does not change a result -/

theorem splitLoop_fuel_mono (T S : GoString) (fuel : Nat) :
    ∀ (i start : Int) (acc : List GoString) (x : Res (Int × List GoString)) (k : Nat),
      splitLoop T S fuel i start acc = x → x ≠ .outOfFuel →
      splitLoop T S (fuel + k) i start acc = x := by
  induction fuel with
  | zero =>
    intro i start acc x k h hx
    rw [splitLoop_unfold] at h ⊢
    by_cases hi : i < (T.length : Int)
    · rw [if_pos hi] at h
      exact absurd h.symm hx
    · rw [if_neg hi] at h ⊢
      exact h
  | succ f ih =>
    intro i start acc x k h hx
    rw [Nat.add_right_comm, splitLoop_unfold]
    rw [splitLoop_unfold] at h
    by_cases hi : i < (T.length : Int)
    · rw [if_pos hi] at h ⊢
      simp only at h ⊢
      cases hs : slice T i (i + S.length) with
      | fault => rw [hs] at h; exact h
      | outOfFuel => rw [hs] at h; exact h
      | ok w =>
        rw [hs] at h
        simp only [Res.bind] at h ⊢
        by_cases hw : w = S
        · rw [if_pos hw] at h ⊢
          cases hs2 : slice T start i with
          | fault => rw [hs2] at h; exact h
          | outOfFuel => rw [hs2] at h; exact h
          | ok seg =>
            rw [hs2] at h
            simp only at h ⊢
            exact ih _ _ _ x k h hx
        · rw [if_neg hw] at h ⊢
          exact ih _ _ _ x k h hx
    · rw [if_neg hi] at h ⊢
      exact h

/-- A run of `Split` that ended (with a value or a fault) ends the same way
with more fuel. -/
theorem Split_fuel_mono (fuel k : Nat) (T S : GoString) (x : Res (List GoString))
    (h : Split fuel T S = x) (hx : x ≠ .outOfFuel) : Split (fuel + k) T S = x := by
  unfold Split at h ⊢
  cases hl : splitLoop T S fuel 0 0 [] with
  | outOfFuel => rw [hl] at h; exact absurd h.symm hx
  | fault => rw [splitLoop_fuel_mono T S fuel 0 0 [] _ k hl (by simp), ← h, hl]
  | ok r => rw [splitLoop_fuel_mono T S fuel 0 0 [] _ k hl (by simp), ← h, hl]

theorem replaceLoop_unfold (input old new : GoString) (fuel : Nat) (i : Int)
    (resultString : List Nat) :
    replaceLoop input old new fuel i resultString =
      if i < (input.length : Int) then
        match fuel with
        | 0 => .outOfFuel
        | fuel + 1 =>
          if i + (old.length : Int) ≤ (input.length : Int) then
            (slice input i (i + old.length)).bind fun w =>
              if w = old then
                replaceLoop input old new fuel (i + old.length) (resultString ++ runes new)
              else
                (index input i).bind fun b =>
                  replaceLoop input old new fuel (i + 1) (resultString ++ [b.val])
          else
            (index input i).bind fun b =>
              replaceLoop input old new fuel (i + 1) (resultString ++ [b.val])
      else .ok resultString := by
  cases fuel <;> rfl

theorem replaceLoop_fuel_mono (T old new : GoString) (fuel : Nat) :
    ∀ (i : Int) (acc : List Nat) (x : Res (List Nat)) (k : Nat),
      replaceLoop T old new fuel i acc = x → x ≠ .outOfFuel →
      replaceLoop T old new (fuel + k) i acc = x := by
  induction fuel with
  | zero =>
    intro i acc x k h hx
    rw [replaceLoop_unfold] at h ⊢
    by_cases hi : i < (T.length : Int)
    · rw [if_pos hi] at h
      exact absurd h.symm hx
    · rw [if_neg hi] at h ⊢
      exact h
  | succ f ih =>
    intro i acc x k h hx
    rw [Nat.add_right_comm, replaceLoop_unfold]
    rw [replaceLoop_unfold] at h
    by_cases hi : i < (T.length : Int)
    · rw [if_pos hi] at h ⊢
      simp only at h ⊢
      have helse : ((index T i).bind fun b => replaceLoop T old new f (i + 1) (acc ++ [b.val])) = x →
          ((index T i).bind fun b => replaceLoop T old new (f + k) (i + 1) (acc ++ [b.val])) = x := by
        intro h
        cases hb : index T i with
        | fault => rw [hb] at h; exact h
        | outOfFuel => rw [hb] at h; exact h
        | ok b =>
          rw [hb] at h
          simp only [Res.bind] at h ⊢
          exact ih _ _ x k h hx
      by_cases hle : i + (old.length : Int) ≤ (T.length : Int)
      · rw [if_pos hle] at h ⊢
        cases hs : slice T i (i + old.length) with
        | fault => rw [hs] at h; exact h
        | outOfFuel => rw [hs] at h; exact h
        | ok w =>
          rw [hs] at h
          simp only [Res.bind] at h ⊢
          by_cases hw : w = old
          · rw [if_pos hw] at h ⊢
            exact ih _ _ x k h hx
          · rw [if_neg hw] at h ⊢
            exact helse h
      · rw [if_neg hle] at h ⊢
        exact helse h
    · rw [if_neg hi] at h ⊢
      exact h

/-- A run of `Replace` that ended (with a value or a fault) ends the same way
with more fuel. -/
theorem Replace_fuel_mono (fuel k : Nat) (T old new : GoString) (x : Res GoString)
    (h : Replace fuel T old new = x) (hx : x ≠ .outOfFuel) :
    Replace (fuel + k) T old new = x := by
  unfold Replace at h ⊢
  cases hl : replaceLoop T old new fuel 0 [] with
  | outOfFuel => rw [hl] at h; exact absurd h.symm hx
  | fault => rw [replaceLoop_fuel_mono T old new fuel 0 [] _ k hl (by simp), ← h, hl]
  | ok r => rw [replaceLoop_fuel_mono T old new fuel 0 [] _ k hl (by simp), ← h, hl]

/-! ## Empty patterns -/

theorem replaceLoop_empty_old (b : Byte) (t new : GoString) (fuel : Nat) :
    ∀ acc : List Nat, replaceLoop (b :: t) [] new fuel 0 acc = .outOfFuel := by
  induction fuel with
  | zero =>
    intro acc
    rw [replaceLoop_unfold, if_pos (by simp)]
  | succ f ih =>
    intro acc
    rw [replaceLoop_unfold, if_pos (by simp)]
    simp only [List.length_nil, Nat.cast_zero, add_zero]
    rw [if_pos (by simp; omega)]
    have hs : slice (b :: t) 0 0 = .ok [] := by
      unfold slice; rw [if_pos (by simp; omega)]; simp
    rw [hs]
    simp only [Res.bind, if_true]
    exact ih _

theorem splitLoop_empty_separator (b : Byte) (t : GoString) (fuel : Nat) :
    ∀ acc : List GoString, splitLoop (b :: t) [] fuel 0 0 acc = .outOfFuel := by
  induction fuel with
  | zero =>
    intro acc
    rw [splitLoop_unfold, if_pos (by simp)]
  | succ f ih =>
    intro acc
    rw [splitLoop_unfold, if_pos (by simp)]
    simp only [List.length_nil, Nat.cast_zero, add_zero]
    have hs : slice (b :: t) 0 0 = .ok [] := by
      unfold slice; rw [if_pos (by simp; omega)]; simp
    rw [hs]
    simp only [Res.bind, if_true]
    have e : (0 : Int) + (0 - 1) + 1 = 0 := by norm_num
    rw [e]
    exact ih _

/-! ## `Count`: every occurrence is counted -/

theorem countLoop_unfold (input substr : GoString) (fuel : Nat) (i count : Int) :
    countLoop input substr fuel i count =
      if i ≤ (input.length : Int) - (substr.length : Int) then
        match fuel with
        | 0 => .outOfFuel
        | fuel + 1 =>
          (slice input i (i + substr.length)).bind fun w =>
            countLoop input substr fuel (i + 1) (if w = substr then count + 1 else count)
      else .ok count := by
  cases fuel <;> rfl

theorem window_eq_iff (T S : GoString) (i : Nat) :
    (T.drop i).take S.length = S ↔ S.isPrefixOf (T.drop i) = true := by
  rw [List.isPrefixOf_iff_prefix, List.prefix_iff_eq_take]
  exact eq_comm

theorem no_occurrence_past_end (T S : GoString) (i : Nat) (hi : i ≤ T.length)
    (h : T.length < i + S.length) :
    S.isPrefixOf (T.drop i) = false := by
  rw [Bool.eq_false_iff]
  intro hp
  rw [List.isPrefixOf_iff_prefix] at hp
  have := hp.length_le
  rw [List.length_drop] at this
  omega

theorem countLoop_spec (T S : GoString) (fuel : Nat) :
    ∀ (i : Nat) (count : Int), T.length + 1 ≤ fuel + i →
      countLoop T S fuel (i : Int) count
        = .ok (count + (((List.range' i (T.length + 1 - i)).filter
            fun j => S.isPrefixOf (T.drop j)).length : Int)) := by
  induction fuel with
  | zero =>
    intro i count hf
    rw [countLoop_unfold, if_neg (by omega)]
    have : T.length + 1 - i = 0 := by omega
    rw [this]
    simp
  | succ f ih =>
    intro i count hf
    rw [countLoop_unfold]
    by_cases hc : (i : Int) ≤ (T.length : Int) - (S.length : Int)
    · rw [if_pos hc]
      simp only
      have hb : i + S.length ≤ T.length := by omega
      have hs : slice T (i : Int) ((i : Int) + (S.length : Int))
          = .ok ((T.drop i).take S.length) := by
        have := slice_nat T i (i + S.length) (by omega) hb
        rw [Nat.add_sub_cancel_left] at this
        rw [← this]; push_cast; rfl
      rw [hs]
      simp only [Res.bind]
      have e1 : (i : Int) + 1 = ((i + 1 : Nat) : Int) := by push_cast; ring
      have e2 : T.length + 1 - i = (T.length + 1 - (i + 1)) + 1 := by omega
      rw [e1, ih (i + 1) _ (by omega), e2, List.range'_succ, List.filter_cons]
      by_cases hw : (T.drop i).take S.length = S
      · rw [if_pos hw, if_pos ((window_eq_iff T S i).mp hw)]
        congr 1
        simp only [List.length_cons]
        push_cast
        ring
      · have hp : ¬ S.isPrefixOf (T.drop i) = true := fun h => hw ((window_eq_iff T S i).mpr h)
        rw [if_neg hw, if_neg hp]
    · rw [if_neg hc]
      congr 1
      have hnil : (List.range' i (T.length + 1 - i)).filter
          (fun j => S.isPrefixOf (T.drop j)) = [] := by
        rw [List.filter_eq_nil_iff]
        intro j hj
        rw [List.mem_range'_1] at hj
        rw [no_occurrence_past_end T S j (by omega) (by omega)]
        simp
      rw [hnil]
      simp

/-- What `Count` computes: the number of all positions at which `substr`
occurs in the text. It never faults. -/
theorem Count_eq (T S : GoString) :
    Count T S = .ok ((occurrences T S).length : Int) := by
  unfold Count occurrences
  have := countLoop_spec T S (T.length + 1) 0 0 (by omega)
  rw [Nat.sub_zero, zero_add] at this
  rw [List.range_eq_range']
  exact this

/-! ## `Replace` on ASCII text -/

theorem EncodeRune_ascii (b : Byte) (hb : b.val < 0x80) : EncodeRune b.val = [b] := by
  unfold EncodeRune
  rw [if_pos (by omega)]
  congr 1
  apply Fin.ext
  rw [byteOf_val]
  omega

theorem replaceLoop_ascii (T old new : GoString) (hold : old ≠ []) (hnew : ValidUTF8 new)
    (fuel : Nat) :
    ∀ (pre suf : GoString) (m : Nat) (acc : List Nat),
      T = pre ++ suf → (∀ b ∈ suf, b.val < 0x80) → suf.length ≤ fuel → suf.length ≤ m →
      ∃ rs, replaceLoop T old new fuel (pre.length : Int) acc = .ok rs
        ∧ EncodeRunes rs = EncodeRunes acc ++ replaceRefFrom old new m suf := by
  induction fuel with
  | zero =>
    intro pre suf m acc hT hascii hf hm
    have hsuf : suf = [] := List.length_eq_zero.mp (by omega)
    subst hsuf
    subst hT
    rw [replaceLoop_unfold, if_neg (by simp)]
    refine ⟨acc, rfl, ?_⟩
    cases m <;> simp [replaceRefFrom]
  | succ f ih =>
    intro pre suf m acc hT hascii hf hm
    cases suf with
    | nil =>
      subst hT
      rw [replaceLoop_unfold, if_neg (by simp)]
      refine ⟨acc, rfl, ?_⟩
      cases m <;> simp [replaceRefFrom]
    | cons b t =>
      have hlen : T.length = pre.length + (t.length + 1) := by
        rw [hT]; simp
      have holdpos : 0 < old.length := List.length_pos.mpr hold
      cases m with
      | zero => simp at hm
      | succ m =>
      rw [replaceLoop_unfold, if_pos (by omega)]
      simp only [replaceRefFrom]
      have hidx : index T (pre.length : Int) = .ok b := by
        rw [hT]; exact index_append_cons pre b t _ rfl
      have helse : ¬ (old.isPrefixOf (b :: t) = true) →
          ∃ rs, ((index T (pre.length : Int)).bind fun b =>
              replaceLoop T old new f ((pre.length : Int) + 1) (acc ++ [b.val])) = .ok rs
            ∧ EncodeRunes rs = EncodeRunes acc ++
                (if old ≠ [] ∧ old.isPrefixOf (b :: t) = true then
                  new ++ replaceRefFrom old new m ((b :: t).drop old.length)
                else b :: replaceRefFrom old new m t) := by
        intro hp
        rw [hidx, if_neg (fun h => hp h.2)]
        simp only [Res.bind]
        have e1 : (pre.length : Int) + 1 = ((pre ++ [b]).length : Int) := by simp
        rw [e1]
        obtain ⟨rs, h1, h2⟩ := ih (pre ++ [b]) t m (acc ++ [b.val]) (by rw [hT]; simp)
          (fun x hx => hascii x (List.mem_cons_of_mem _ hx))
          (by simp at hf; omega) (by simp at hm; omega)
        refine ⟨rs, h1, ?_⟩
        rw [h2, EncodeRunes_append, EncodeRunes_cons, EncodeRunes_nil, List.append_nil,
          EncodeRune_ascii b (hascii b (List.mem_cons_self _ _)), List.append_assoc,
          List.singleton_append]
      by_cases hle : (pre.length : Int) + (old.length : Int) ≤ (T.length : Int)
      · rw [if_pos hle]
        have hs : slice T (pre.length : Int) ((pre.length : Int) + (old.length : Int))
            = .ok ((b :: t).take old.length) := by
          have := slice_nat T pre.length (pre.length + old.length) (by omega) (by omega)
          rw [Nat.add_sub_cancel_left] at this
          rw [hT, List.drop_left] at this
          rw [hT, ← this]; push_cast; rfl
        rw [hs]
        simp only [Res.bind]
        by_cases hw : (b :: t).take old.length = old
        · have hp : old.isPrefixOf (b :: t) = true := by
            rw [List.isPrefixOf_iff_prefix, List.prefix_iff_eq_take]; exact hw.symm
          rw [if_pos hw, if_pos ⟨hold, hp⟩]
          have hpre : old <+: b :: t := List.isPrefixOf_iff_prefix.mp hp
          obtain ⟨rest, hrest⟩ := hpre
          have hdrop : (b :: t).drop old.length = rest := by
            rw [← hrest, List.drop_left]
          have hl2 : (b :: t).length = old.length + rest.length := by
            rw [← hrest, List.length_append]
          have e1 : (pre.length : Int) + (old.length : Int) = ((pre ++ old).length : Int) := by
            simp
          rw [e1, hdrop]
          obtain ⟨rs, h1, h2⟩ := ih (pre ++ old) rest m (acc ++ runes new)
            (by rw [hT, ← hrest, List.append_assoc])
            (fun x hx => hascii x (by rw [← hrest]; exact List.mem_append_right _ hx))
            (by omega) (by omega)
          refine ⟨rs, h1, ?_⟩
          rw [h2, EncodeRunes_append, hnew, List.append_assoc]
        · rw [if_neg hw]
          have hp : ¬ old.isPrefixOf (b :: t) = true := by
            intro hp
            rw [List.isPrefixOf_iff_prefix, List.prefix_iff_eq_take] at hp
            exact hw hp.symm
          exact helse hp
      · rw [if_neg hle]
        have hp : ¬ old.isPrefixOf (b :: t) = true := by
          intro hp
          have := (List.isPrefixOf_iff_prefix.mp hp).length_le
          simp only [List.length_cons] at this
          omega
        exact helse hp

/-- On ASCII text, with a non-empty `old` and a valid UTF-8 `new`, `Replace`
completes within `len(T)` iterations and delivers the reference replacement. -/
theorem Replace_ascii (T old new : GoString) (hold : old ≠ []) (hnew : ValidUTF8 new)
    (hT : ∀ b ∈ T, b.val < 0x80) (fuel : Nat) (hf : T.length ≤ fuel) :
    Replace fuel T old new = .ok (replaceRef T old new) := by
  obtain ⟨rs, h1, h2⟩ := replaceLoop_ascii T old new hold hnew fuel [] T T.length []
    (by simp) hT hf (Nat.le_refl _)
  unfold Replace replaceRef
  have h1' : replaceLoop T old new fuel 0 [] = .ok rs := h1
  rw [h1']
  simp only [Res.bind]
  rw [h2, EncodeRunes_nil, List.nil_append]

/-! ## The code at concrete inputs -/

/-- C1, the code at the failing input: `Count("aaaa", "aa")` delivers 3, where
the non-overlapping left-to-right scan of the specification counts 2. For every
text and `substr`, `Count` delivers the number of all positions at which
`substr` occurs, overlapping occurrences included. (`Count("a", "aa")` is 0, as
the claim says for a `substr` longer than the text.) -/
theorem C1_Count_counts_overlapping :
    Count (str "aaaa") (str "aa") = .ok 3
    ∧ countNonOverlapping (str "aaaa") (str "aa") = 2
    ∧ (∀ T S : GoString, Count T S = .ok ((occurrences T S).length : Int))
    ∧ Count (str "a") (str "aa") = .ok 0 :=
  ⟨by decide, by decide, Count_eq, by decide⟩

/-- C2, the code at the failing inputs: `Split("a", "ab")` faults at its first
window `input[0:2]` and `Split("abc", "ab")` faults at the window `input[2:4]`,
both past the end of the text, however much fuel the loop is given. -/
theorem C2_Split_window_out_of_range :
    (∀ fuel, Split (fuel + 1) (str "a") (str "ab") = .fault)
    ∧ (∀ fuel, Split (fuel + 2) (str "abc") (str "ab") = .fault) := by
  refine ⟨fun fuel => rfl, fun fuel => rfl⟩

/-- C3, counterexample: in `"a,"` the separator `","` occurs once, so no two
occurrences overlap or touch, yet no run of `Split("a,", ",")` delivers
segments that `Join` puts back together to `"a,"`: it delivers `["a"]`. -/
theorem C3_counterexample :
    str "," ≠ [] ∧ NoOverlapOrTouch (str "a,") (str ",")
    ∧ ValidUTF8 (str "a,") ∧ ValidUTF8 (str ",")
    ∧ ¬ ∃ fuel segs, Split fuel (str "a,") (str ",") = .ok segs
        ∧ Join segs (str ",") = str "a," := by
  refine ⟨by decide, by decide, by decide, by decide, ?_⟩
  rintro ⟨fuel, segs, h1, h2⟩
  have e1 := Split_fuel_mono fuel 2 _ _ _ h1 (by simp)
  have e2 := Split_fuel_mono 2 fuel (str "a,") (str ",") (.ok [str "a"]) (by decide) (by simp)
  rw [Nat.add_comm, e2] at e1
  injection e1 with e1
  subst e1
  revert h2
  decide

/-- C4, the code at the failing input: in `"é"` (bytes `C3 A9`) the pattern
`"x"` does not occur, and `Replace("é", "x", "y")` delivers `"Ã©"` (bytes
`C3 83 C2 A9`): each byte is appended as a rune of its own. The reference
replacement returns `"é"` unchanged. On the ASCII text `"go go go"` the code
delivers `"Golang Golang Golang"`. -/
theorem C4_Replace_bytes_as_runes :
    (∀ k, Replace (2 + k) (str "\u00e9") (str "x") (str "y") = .ok (str "\u00c3\u00a9"))
    ∧ replaceRef (str "\u00e9") (str "x") (str "y") = str "\u00e9"
    ∧ str "\u00c3\u00a9" ≠ str "\u00e9"
    ∧ (∀ k, Replace (8 + k) (str "go go go") (str "go") (str "Golang")
        = .ok (str "Golang Golang Golang")) := by
  refine ⟨fun k => Replace_fuel_mono 2 k _ _ _ _ (by decide) (by simp), by decide, by decide,
    fun k => Replace_fuel_mono 8 k _ _ _ _ (by decide) (by simp)⟩

/-- C5, counterexample: no run of `Replace` on `"  Hello Go World  "` with
`old = "go"` and `new = "Golang"` delivers `"  Hello Golang World  "`. -/
theorem C5_counterexample :
    ¬ ∃ fuel, Replace fuel (str "  Hello Go World  ") (str "go") (str "Golang")
        = .ok (str "  Hello Golang World  ") := by
  rintro ⟨fuel, h⟩
  have e1 := Replace_fuel_mono fuel 18 _ _ _ _ h (by simp)
  have e2 := Replace_fuel_mono 18 fuel (str "  Hello Go World  ") (str "go") (str "Golang")
    (.ok (str "  Hello Go World  ")) (by decide) (by simp)
  rw [Nat.add_comm, e2] at e1
  revert e1
  decide

/-- C5 (amended): `Replace` applied to `"  Hello Go World  "` with `old = "go"`
and `new = "Golang"` delivers the text unchanged, given fuel for its 18
iterations: the comparison is case-sensitive and `"go"` occurs nowhere in the
text. -/
theorem C5_Replace_sample_unchanged :
    (∀ k, Replace (18 + k) (str "  Hello Go World  ") (str "go") (str "Golang")
      = .ok (str "  Hello Go World  "))
    ∧ occurrences (str "  Hello Go World  ") (str "go") = [] := by
  refine ⟨fun k => Replace_fuel_mono 18 k _ _ _ _ (by decide) (by simp), by decide⟩

/-- C6, the code on an empty pattern: for every non-empty text `b :: t`, the
loops of `Replace(text, "", new)` and of `Split(text, "")` never end: whatever
the fuel, the run is still inside the loop when the fuel is used up. -/
theorem C6_empty_pattern_never_terminates (b : Byte) (t new : GoString) (fuel : Nat) :
    Replace fuel (b :: t) [] new = .outOfFuel ∧ Split fuel (b :: t) [] = .outOfFuel := by
  constructor
  · unfold Replace
    rw [replaceLoop_empty_old]
    rfl
  · unfold Split
    rw [splitLoop_empty_separator]
    rfl

/-- C7, the code at the failing inputs: `IsSpace` is true of the single code
point U+2003 (bytes `E2 80 83`), but `Strip` returns it unchanged instead of
`""`; and `Strip("à")` (U+00E0, bytes `C3 A0`, not white space) delivers the
single byte `C3`, having taken the byte `A0` for U+00A0. The code-point
stripping of the specification gives `""` and `"à"`. -/
theorem C7_Strip_bytewise :
    IsSpace (str "\u2003") = true
    ∧ Strip (str "\u2003") = .ok (str "\u2003")
    ∧ stripRef (str "\u2003") = []
    ∧ runes (str "\u00e0") = [0xE0] ∧ unicodeIsSpace 0xE0 = false
    ∧ Strip (str "\u00e0") = .ok [0xC3]
    ∧ stripRef (str "\u00e0") = str "\u00e0" := by decide

/-! ## `Find` -/

theorem findLoop_unfold (input substr : GoString) (fuel : Nat) (i : Int) :
    findLoop input substr fuel i =
      if i ≤ (input.length : Int) - (substr.length : Int) then
        match fuel with
        | 0 => .outOfFuel
        | fuel + 1 =>
          (slice input i (i + substr.length)).bind fun w =>
            if w = substr then .ok i else findLoop input substr fuel (i + 1)
      else .ok (-1) := by
  cases fuel <;> rfl

theorem findLoop_spec (T S : GoString) (fuel : Nat) :
    ∀ i : Nat, T.length + 1 ≤ fuel + i →
      (findLoop T S fuel (i : Int) = .ok (-1) ∧ ∀ j, i ≤ j → ¬ OccursAt T S j)
      ∨ ∃ k : Nat, findLoop T S fuel (i : Int) = .ok (k : Int) ∧ i ≤ k ∧ OccursAt T S k
          ∧ ∀ j, i ≤ j → j < k → ¬ OccursAt T S j := by
  induction fuel with
  | zero =>
    intro i hf
    left
    rw [findLoop_unfold, if_neg (by omega)]
    refine ⟨rfl, ?_⟩
    intro j hj h
    have := h.1
    omega
  | succ f ih =>
    intro i hf
    rw [findLoop_unfold]
    by_cases hc : (i : Int) ≤ (T.length : Int) - (S.length : Int)
    · rw [if_pos hc]
      simp only
      have hb : i + S.length ≤ T.length := by omega
      have hs : slice T (i : Int) ((i : Int) + (S.length : Int))
          = .ok ((T.drop i).take S.length) := by
        have := slice_nat T i (i + S.length) (by omega) hb
        rw [Nat.add_sub_cancel_left] at this
        rw [← this]; push_cast; rfl
      rw [hs]
      simp only [Res.bind]
      by_cases hw : (T.drop i).take S.length = S
      · right
        rw [if_pos hw]
        exact ⟨i, rfl, Nat.le_refl _, ⟨hb, hw⟩, fun j h1 h2 => by omega⟩
      · rw [if_neg hw]
        have e1 : (i : Int) + 1 = ((i + 1 : Nat) : Int) := by push_cast; ring
        rw [e1]
        have hni : ¬ OccursAt T S i := fun h => hw h.2
        rcases ih (i + 1) (by omega) with ⟨h1, h2⟩ | ⟨k, h1, h2, h3, h4⟩
        · left
          refine ⟨h1, ?_⟩
          intro j hj
          by_cases hji : j = i
          · rw [hji]; exact hni
          · exact h2 j (by omega)
        · right
          refine ⟨k, h1, by omega, h3, ?_⟩
          intro j hj hjk
          by_cases hji : j = i
          · rw [hji]; exact hni
          · exact h4 j (by omega) hjk
    · left
      rw [if_neg hc]
      refine ⟨rfl, ?_⟩
      intro j hj h
      have := h.1
      omega

/-- What `Find` computes: `-1` when `substr` occurs nowhere, else the least
offset at which it occurs. It never faults. -/
theorem Find_spec (T S : GoString) :
    (Find T S = .ok (-1) ∧ ∀ j, ¬ OccursAt T S j)
    ∨ ∃ k : Nat, Find T S = .ok (k : Int) ∧ OccursAt T S k ∧ ∀ j, j < k → ¬ OccursAt T S j := by
  unfold Find
  rcases findLoop_spec T S (T.length + 1) 0 (by omega) with ⟨h1, h2⟩ | ⟨k, h1, -, h3, h4⟩
  · exact Or.inl ⟨h1, fun j => h2 j (Nat.zero_le _)⟩
  · exact Or.inr ⟨k, h1, h3, fun j hj => h4 j (Nat.zero_le _) hj⟩

theorem Find_eq_neg_one_iff (T S : GoString) :
    Find T S = .ok (-1) ↔ ∀ j, ¬ OccursAt T S j := by
  rcases Find_spec T S with ⟨h1, h2⟩ | ⟨k, h1, h2, -⟩
  · exact ⟨fun _ => h2, fun _ => h1⟩
  · constructor
    · intro h
      rw [h1] at h
      injection h with h
      omega
    · intro h
      exact absurd h2 (h k)

theorem Find_eq_iff (T S : GoString) (k : Nat) :
    Find T S = .ok (k : Int) ↔ OccursAt T S k ∧ ∀ j, j < k → ¬ OccursAt T S j := by
  rcases Find_spec T S with ⟨h1, h2⟩ | ⟨k', h1, h2, h3⟩
  · constructor
    · intro h
      rw [h1] at h
      injection h with h
      omega
    · intro h
      exact absurd h.1 (h2 k)
  · constructor
    · intro h
      rw [h1] at h
      injection h with h
      have : k' = k := by omega
      subst this
      exact ⟨h2, h3⟩
    · rintro ⟨h4, h5⟩
      have : k' = k := by
        rcases Nat.lt_trichotomy k' k with h | h | h
        · exact absurd h2 (h5 k' h)
        · exact h
        · exact absurd h4 (h3 k h)
      rw [h1, this]

theorem OccursAt_nil (T : GoString) : OccursAt T [] 0 := by
  unfold OccursAt; simp

/-- C11: for every text `T` and `substr` `S`, `Find T S` delivers a value; it
is `-1` exactly when `S` occurs at no offset of `T`, and it is `k` exactly when
`S` occurs at byte offset `k` and at no smaller offset; a delivered value other
than `-1` lies in `0 .. len(T) - len(S)`. `Find T S = -1` when `S` is longer
than `T`, `Find T "" = 0`, `Find("hello world", "world") = 6` and
`Find("hello", "xyz") = -1`. -/
theorem C11_Find_first_occurrence (T S : GoString) :
    (∃ r, Find T S = .ok r)
    ∧ (Find T S = .ok (-1) ↔ ∀ j, ¬ OccursAt T S j)
    ∧ (∀ k : Nat, Find T S = .ok (k : Int) ↔ OccursAt T S k ∧ ∀ j, j < k → ¬ OccursAt T S j)
    ∧ (∀ r, Find T S = .ok r → r = -1 ∨ (0 ≤ r ∧ r ≤ (T.length : Int) - (S.length : Int)))
    ∧ (T.length < S.length → Find T S = .ok (-1))
    ∧ Find T [] = .ok 0
    ∧ Find (str "hello world") (str "world") = .ok 6
    ∧ Find (str "hello") (str "xyz") = .ok (-1) := by
  refine ⟨?_, Find_eq_neg_one_iff T S, Find_eq_iff T S, ?_, ?_, ?_, by decide, by decide⟩
  · rcases Find_spec T S with ⟨h1, -⟩ | ⟨k, h1, -, -⟩
    · exact ⟨_, h1⟩
    · exact ⟨_, h1⟩
  · intro r hr
    rcases Find_spec T S with ⟨h1, -⟩ | ⟨k, h1, h2, -⟩
    · rw [h1] at hr; injection hr with hr; left; omega
    · rw [h1] at hr; injection hr with hr
      right
      have := h2.1
      omega
  · intro hlt
    rw [Find_eq_neg_one_iff]
    intro j h
    have := h.1
    omega
  · exact (Find_eq_iff T [] 0).mpr ⟨OccursAt_nil T, fun j hj => by omega⟩

/-! ## `StartsWith`, `EndsWith` and their relation to `Find` and `Count` -/

theorem StartsWith_eq (T S : GoString) : StartsWith T S = .ok (decide (S <+: T)) := by
  unfold StartsWith
  by_cases h : T.length < S.length
  · rw [if_pos h]
    congr 1
    symm
    rw [decide_eq_false_iff_not]
    intro hp
    have := hp.length_le
    omega
  · rw [if_neg h]
    have hs := slice_nat T 0 S.length (Nat.zero_le _) (by omega)
    simp only [Nat.cast_zero, Nat.sub_zero, List.drop_zero] at hs
    rw [hs]
    simp only [Res.bind]
    congr 1
    rw [decide_eq_decide, List.prefix_iff_eq_take]
    exact eq_comm

theorem EndsWith_eq (T S : GoString) : EndsWith T S = .ok (decide (S <:+ T)) := by
  unfold EndsWith
  by_cases h : T.length < S.length
  · rw [if_pos h]
    congr 1
    symm
    rw [decide_eq_false_iff_not]
    intro hp
    have := hp.length_le
    omega
  · rw [if_neg h]
    have hs := slice_nat T (T.length - S.length) T.length (by omega) (Nat.le_refl _)
    have e : ((T.length - S.length : Nat) : Int) = (T.length : Int) - (S.length : Int) := by
      omega
    rw [e] at hs
    rw [hs]
    simp only [Res.bind]
    congr 1
    rw [decide_eq_decide, List.suffix_iff_eq_drop]
    have hl : (T.drop (T.length - S.length)).length = S.length := by
      rw [List.length_drop]; omega
    have e2 : T.length - (T.length - S.length) = S.length := by omega
    rw [e2, List.take_of_length_le (by omega)]
    exact eq_comm

/-- C12: for every text `T` and `substr` `S`, `StartsWith T S` is true exactly
when `T = S ++ R` for some `R`, and `EndsWith T S` is true exactly when
`T = R ++ S` for some `R`; both always deliver a value (no slice is out of
range) and both are false when `S` is longer than `T`.
`StartsWith("golang", "go")` and `EndsWith("golang", "lang")` are true,
`StartsWith("go", "golang")` is false. -/
theorem C12_StartsWith_EndsWith (T S : GoString) :
    (StartsWith T S = .ok true ↔ ∃ R, T = S ++ R)
    ∧ (EndsWith T S = .ok true ↔ ∃ R, T = R ++ S)
    ∧ (∃ b, StartsWith T S = .ok b) ∧ (∃ b, EndsWith T S = .ok b)
    ∧ (T.length < S.length → StartsWith T S = .ok false ∧ EndsWith T S = .ok false)
    ∧ StartsWith (str "golang") (str "go") = .ok true
    ∧ EndsWith (str "golang") (str "lang") = .ok true
    ∧ StartsWith (str "go") (str "golang") = .ok false := by
  refine ⟨?_, ?_, ⟨_, StartsWith_eq T S⟩, ⟨_, EndsWith_eq T S⟩, ?_, by decide, by decide,
    by decide⟩
  · rw [StartsWith_eq]
    constructor
    · intro h
      injection h with h
      obtain ⟨R, hR⟩ := of_decide_eq_true h
      exact ⟨R, hR.symm⟩
    · rintro ⟨R, hR⟩
      congr 1
      exact decide_eq_true ⟨R, hR.symm⟩
  · rw [EndsWith_eq]
    constructor
    · intro h
      injection h with h
      obtain ⟨R, hR⟩ := of_decide_eq_true h
      exact ⟨R, hR.symm⟩
    · rintro ⟨R, hR⟩
      congr 1
      exact decide_eq_true ⟨R, hR.symm⟩
  · intro hlt
    unfold StartsWith EndsWith
    rw [if_pos hlt, if_pos hlt]
    exact ⟨rfl, rfl⟩

theorem mem_occurrences_iff (T S : GoString) (j : Nat) :
    j ∈ occurrences T S ↔ OccursAt T S j := by
  unfold occurrences OccursAt
  rw [List.mem_filter, List.mem_range, ← window_eq_iff]
  constructor
  · rintro ⟨h1, h2⟩
    refine ⟨?_, h2⟩
    have := congrArg List.length h2
    rw [List.length_take, List.length_drop] at this
    omega
  · rintro ⟨h1, h2⟩
    exact ⟨by omega, h2⟩

/-- C20: for every text `T` and `substr` `S`, the empty `S` included,
`Find T S = -1` exactly when `Count T S = 0`, and `Find T S = 0` exactly when
`StartsWith T S` is true. -/
theorem C20_Find_Count_StartsWith (T S : GoString) :
    (Find T S = .ok (-1) ↔ Count T S = .ok 0)
    ∧ (Find T S = .ok 0 ↔ StartsWith T S = .ok true) := by
  constructor
  · rw [Find_eq_neg_one_iff, Count_eq]
    constructor
    · intro h
      have : occurrences T S = [] := by
        rw [List.eq_nil_iff_forall_not_mem]
        intro j hj
        exact h j ((mem_occurrences_iff T S j).mp hj)
      rw [this]; rfl
    · intro h j hj
      injection h with h
      have h0 : (occurrences T S).length = 0 := by omega
      have := List.length_eq_zero.mp h0
      have hm := (mem_occurrences_iff T S j).mpr hj
      rw [this] at hm
      exact List.not_mem_nil _ hm
  · have h0 := Find_eq_iff T S 0
    have e : ((0 : Nat) : Int) = 0 := rfl
    rw [e] at h0
    rw [h0, StartsWith_eq]
    constructor
    · rintro ⟨⟨h1, h2⟩, -⟩
      congr 1
      apply decide_eq_true
      rw [List.prefix_iff_eq_take]
      simpa using h2.symm
    · intro h
      injection h with h
      have hp := of_decide_eq_true h
      refine ⟨⟨?_, ?_⟩, fun j hj => by omega⟩
      · have := hp.length_le; omega
      · rw [List.prefix_iff_eq_take] at hp
        simpa using hp.symm

/-! ## `IsAlpha`, `IsDigit`, `IsSpace`; folding twice; `Join`; `Strip` in bounds -/

theorem isAlphaLoop_iff (isLetter : Nat → Bool) (rs : List Nat) :
    isAlphaLoop isLetter rs = true ↔ ∀ r ∈ rs, isLetter r = true := by
  induction rs with
  | nil => simp [isAlphaLoop]
  | cons r rs ih =>
    rw [isAlphaLoop]
    cases h : isLetter r <;> simp [h, ih]

theorem isDigitLoop_iff (digitTable : Nat → Bool) (rs : List Nat) :
    isDigitLoop digitTable rs = true ↔ ∀ r ∈ rs, unicodeIsDigit digitTable r = true := by
  induction rs with
  | nil => simp [isDigitLoop]
  | cons r rs ih =>
    rw [isDigitLoop]
    cases h : unicodeIsDigit digitTable r <;> simp [h, ih]

theorem isSpaceLoop_iff (rs : List Nat) :
    isSpaceLoop rs = true ↔ ∀ r ∈ rs, unicodeIsSpace r = true := by
  induction rs with
  | nil => simp [isSpaceLoop]
  | cons r rs ih =>
    rw [isSpaceLoop]
    cases h : unicodeIsSpace r <;> simp [h, ih]

/-- C13: for every text `T`, whatever the tables of `unicode.IsLetter` and
`unicode.Digit` are, `IsAlpha T` (`IsDigit T`, `IsSpace T`) is true exactly
when every code point of `T`, as `range` yields them, is a letter (a decimal
digit, white space); each of the three is true of the empty text,
`IsDigit("123")` is true and `IsSpace("  \t")` is true. -/
theorem C13_IsAlpha_IsDigit_IsSpace (isLetter digitTable : Nat → Bool) (T : GoString) :
    (IsAlpha isLetter T = true ↔ ∀ r ∈ runes T, isLetter r = true)
    ∧ (IsDigit digitTable T = true ↔ ∀ r ∈ runes T, unicodeIsDigit digitTable r = true)
    ∧ (IsSpace T = true ↔ ∀ r ∈ runes T, unicodeIsSpace r = true)
    ∧ IsAlpha isLetter [] = true ∧ IsDigit digitTable [] = true ∧ IsSpace [] = true
    ∧ IsDigit digitTable (str "123") = true
    ∧ IsSpace (str "  \t") = true :=
  ⟨isAlphaLoop_iff isLetter _, isDigitLoop_iff digitTable _, isSpaceLoop_iff _, rfl, rfl, rfl,
    rfl, by decide⟩

/-- C19: for every text `T`, `Lower (Upper T) = Lower T` and
`Upper (Lower T) = Upper T`. -/
theorem C19_Lower_Upper_absorb (T : GoString) :
    Lower (Upper T) = Lower T ∧ Upper (Lower T) = Upper T := by
  constructor
  · rw [Lower_eq (Upper T), runes_Upper, Lower_eq, List.map_map]
    congr 1
    apply List.map_congr_left
    intro c _
    simp only [Function.comp]
    split_ifs <;> omega
  · rw [Upper_eq (Lower T), runes_Lower, Upper_eq, List.map_map]
    congr 1
    apply List.map_congr_left
    intro c _
    simp only [Function.comp]
    split_ifs <;> omega

theorem joinLoop_valid (S : GoString) (E : List GoString) :
    ∀ (i : Nat) (rs : List Nat), (∀ r ∈ rs, ValidRune r) →
      ∀ r ∈ joinLoop S E i rs, ValidRune r := by
  induction E with
  | nil => intro i rs h; exact h
  | cons e rest ih =>
    intro i rs h
    rw [joinLoop]
    apply ih
    intro r hr
    rw [List.mem_append] at hr
    rcases hr with hr | hr
    · split_ifs at hr
      · rw [List.mem_append] at hr
        rcases hr with hr | hr
        · exact h r hr
        · exact runes_valid S r hr
      · exact h r hr
    · exact runes_valid e r hr

theorem runes_Join (E : List GoString) (S : GoString) :
    runes (Join E S) = joinLoop S E 0 [] := by
  unfold Join
  exact runes_EncodeRunes _ (joinLoop_valid S E 0 [] (by simp))

theorem joinLoop_zero_cons (S x : GoString) (R : List GoString) :
    joinLoop S (x :: R) 0 [] = runes x ++ R.flatMap (fun e => runes S ++ runes e) := by
  rw [joinLoop, if_neg (Nat.lt_irrefl 0), joinLoop_sep _ _ _ _ (Nat.succ_pos 0),
    List.nil_append]

theorem Join_singleton (x S : GoString) : Join [x] S = EncodeRunes (runes x) := by
  rw [Join_cons]; simp

theorem Join_cons_cons (x y : GoString) (rest : List GoString) (S : GoString) :
    Join (x :: y :: rest) S
      = EncodeRunes (runes x) ++ EncodeRunes (runes S) ++ Join (y :: rest) S := by
  rw [Join_cons, Join_cons, List.flatMap_cons]
  simp only [List.append_assoc]

/-- C15: `Join [] S = ""`; `Join [x] S` is `x` converted to runes and back,
which is `x` itself when `x` is valid UTF-8 and has the code points of `x` in
any case; `Join (x :: y :: rest) S` is `x`, then `S`, then
`Join (y :: rest) S`, each of `x` and `S` converted to runes and back (so
`x ++ S ++ Join (y :: rest) S` for valid UTF-8 `x` and `S`, and the same code
points in any case); `Join(["Hello","Go","World"], "-") = "Hello-Go-World"`. -/
theorem C15_Join_structure (x y S : GoString) (rest : List GoString) :
    Join [] S = []
    ∧ Join [x] S = EncodeRunes (runes x)
    ∧ Join (x :: y :: rest) S
        = EncodeRunes (runes x) ++ EncodeRunes (runes S) ++ Join (y :: rest) S
    ∧ (ValidUTF8 x → Join [x] S = x)
    ∧ (ValidUTF8 x → ValidUTF8 S → Join (x :: y :: rest) S = x ++ S ++ Join (y :: rest) S)
    ∧ runes (Join [x] S) = runes x
    ∧ runes (Join (x :: y :: rest) S) = runes x ++ runes S ++ runes (Join (y :: rest) S)
    ∧ Join [str "Hello", str "Go", str "World"] (str "-") = str "Hello-Go-World" := by
  refine ⟨rfl, Join_singleton x S, Join_cons_cons x y rest S, ?_, ?_, ?_, ?_, by decide⟩
  · intro hx
    rw [Join_singleton]; exact hx
  · intro hx hS
    rw [Join_cons_cons, hx, hS]
  · rw [Join_singleton]
    exact runes_EncodeRunes _ (runes_valid x)
  · rw [runes_Join, runes_Join, joinLoop_zero_cons, joinLoop_zero_cons, List.flatMap_cons]
    simp only [List.append_assoc]

theorem index_in_range (T : GoString) (i : Int) (h0 : 0 ≤ i) (h1 : i < (T.length : Int)) :
    ∃ b, index T i = .ok b := by
  unfold index
  rw [if_pos h0]
  have hlt : i.toNat < T.length := by omega
  rw [List.get?_eq_getElem?, List.getElem?_eq_getElem hlt]
  exact ⟨_, rfl⟩

theorem stripLeading_no_fault (T : GoString) (fuel : Nat) :
    ∀ start endIdx : Int, 0 ≤ start → endIdx < (T.length : Int) →
      stripLeading T fuel start endIdx ≠ .fault := by
  induction fuel with
  | zero =>
    intro start endIdx h0 h1
    rw [stripLeading_unfold]
    split_ifs with hc
    · obtain ⟨b, hb⟩ := index_in_range T start h0 (by omega)
      rw [hb]
      simp only [Res.bind]
      split_ifs <;> simp
    · simp
  | succ f ih =>
    intro start endIdx h0 h1
    rw [stripLeading_unfold]
    split_ifs with hc
    · obtain ⟨b, hb⟩ := index_in_range T start h0 (by omega)
      rw [hb]
      simp only [Res.bind]
      split_ifs
      · exact ih (start + 1) endIdx (by omega) h1
      · simp
    · simp

theorem stripTrailing_no_fault (T : GoString) (fuel : Nat) :
    ∀ start endIdx : Int, 0 ≤ start → endIdx < (T.length : Int) →
      stripTrailing T fuel start endIdx ≠ .fault := by
  induction fuel with
  | zero =>
    intro start endIdx h0 h1
    rw [stripTrailing_unfold]
    split_ifs with hc
    · obtain ⟨b, hb⟩ := index_in_range T endIdx (by omega) h1
      rw [hb]
      simp only [Res.bind]
      split_ifs <;> simp
    · simp
  | succ f ih =>
    intro start endIdx h0 h1
    rw [stripTrailing_unfold]
    split_ifs with hc
    · obtain ⟨b, hb⟩ := index_in_range T endIdx (by omega) h1
      rw [hb]
      simp only [Res.bind]
      split_ifs
      · exact ih start (endIdx - 1) h0 (by omega)
      · simp
    · simp

/-- A text made only of ASCII spaces is stripped to the empty text. -/
theorem Strip_all_spaces (T : GoString) (h : ∀ b ∈ T, b = (0x20 : Byte)) :
    Strip T = .ok [] := by
  have hd : T.dropWhile isSpaceByte = [] := by
    rw [List.dropWhile_eq_nil_iff]
    intro b hb
    rw [h b hb]
    decide
  rw [Strip_eq, hd]
  rfl

/-- C18: for every text `T`, the two loops of `Strip` deliver `start` and
`end` with `0 <= start <= end + 1 <= len(T)`, the final slice
`input[start : end+1]` is in range, and `Strip T` delivers a value. From every
state with `0 <= start` and `end < len(T)` neither loop faults, whatever the
fuel: the accesses `input[start]` and `input[end]`, made only under
`start <= end`, are in range, and each step keeps `0 <= start` and
`end < len(T)`. When `T` is made only of ASCII spaces, `Strip T = ""`; in
particular `Strip("") = ""` and `Strip("   ") = ""`. -/
theorem C18_Strip_in_bounds (T : GoString) :
    ∃ (start endIdx : Int) (r : GoString),
      stripLeading T T.length 0 ((T.length : Int) - 1) = .ok start
      ∧ stripTrailing T T.length start ((T.length : Int) - 1) = .ok endIdx
      ∧ 0 ≤ start ∧ start ≤ endIdx + 1 ∧ endIdx + 1 ≤ (T.length : Int)
      ∧ slice T start (endIdx + 1) = .ok r ∧ Strip T = .ok r
      ∧ (∀ (fuel : Nat) (s e : Int), 0 ≤ s → e < (T.length : Int) →
          stripLeading T fuel s e ≠ .fault ∧ stripTrailing T fuel s e ≠ .fault)
      ∧ ((∀ b ∈ T, b = (0x20 : Byte)) → Strip T = .ok [])
      ∧ Strip (str "") = .ok (str "") ∧ Strip (str "   ") = .ok (str "") := by
  have hlen : T.length = (T.takeWhile isSpaceByte).length + (T.dropWhile isSpaceByte).length := by
    have := congrArg List.length (List.takeWhile_append_dropWhile isSpaceByte T)
    rw [List.length_append] at this
    omega
  have hT : T = T.takeWhile isSpaceByte ++ T.dropWhile isSpaceByte ++ [] := by
    simp [List.takeWhile_append_dropWhile]
  have h1 := stripLeading_spec T [] T.length T 0 _ rfl rfl rfl (Nat.le_refl _)
  rw [zero_add] at h1
  have h2 := stripTrailing_spec (T.takeWhile isSpaceByte) (T.dropWhile isSpaceByte) [] T.length T
    ((T.takeWhile isSpaceByte).length : Int) ((T.length : Int) - 1) hT rfl (by omega) (by omega)
  have hle := (List.rdropWhile_prefix isSpaceByte (T.dropWhile isSpaceByte)).length_le
  have h3 := Strip_eq T
  refine ⟨((T.takeWhile isSpaceByte).length : Int),
    ((T.takeWhile isSpaceByte).length : Int)
      + (((T.dropWhile isSpaceByte).rdropWhile isSpaceByte).length : Int) - 1,
    (T.dropWhile isSpaceByte).rdropWhile isSpaceByte,
    h1, h2, by omega, by omega, by omega, ?_, h3,
    fun fuel s e hs he => ⟨stripLeading_no_fault T fuel s e hs he,
      stripTrailing_no_fault T fuel s e hs he⟩, Strip_all_spaces T, by decide, by decide⟩
  rw [← h3]
  unfold Strip
  rw [h1]
  simp only [Res.bind]
  rw [h2]

/-! ## `Split` with a one-byte separator -/

theorem Res.ok_bind {α β : Type} (a : α) (f : α → Res β) : (Res.ok a).bind f = f a := rfl

theorem splitLoop_segments (T : GoString) (c : Byte) (suf : GoString) :
    ∀ (pre cur : GoString) (acc : List GoString) (fuel : Nat) (i start : Int),
      T = pre ++ cur ++ suf → i = (pre.length : Int) + (cur.length : Int) →
      start = (pre.length : Int) → suf.length ≤ fuel →
      ((splitLoop T [c] fuel i start acc).bind fun p =>
          if p.1 < (T.length : Int) then
            (slice T p.1 T.length).bind fun seg => .ok (p.2 ++ [seg])
          else .ok p.2)
        = .ok (acc ++ splitSegments c suf cur) := by
  induction suf with
  | nil =>
    intro pre cur acc fuel i start hT hi hst hf
    have hlen : T.length = pre.length + cur.length := by rw [hT]; simp
    rw [splitLoop_unfold, if_neg (by omega), Res.ok_bind, splitSegments]
    simp only
    by_cases hcur : cur = []
    · subst hcur
      rw [if_neg (by simp at hlen; omega), if_pos rfl, List.append_nil]
    · have hpos : 0 < cur.length := List.length_pos.mpr hcur
      rw [if_pos (by omega), if_neg hcur, hst,
        slice_nat T pre.length T.length (by omega) (Nat.le_refl _), Res.ok_bind]
      congr 3
      rw [hT, List.append_nil, List.drop_left, List.take_of_length_le]
      simp
  | cons b t ih =>
    intro pre cur acc fuel i start hT hi hst hf
    have hlen : T.length = pre.length + cur.length + (t.length + 1) := by
      rw [hT]; simp; omega
    cases fuel with
    | zero => simp at hf
    | succ f =>
    rw [splitLoop_unfold, if_pos (by omega)]
    simp only [List.length_singleton, Nat.cast_one]
    have hs : slice T i (i + 1) = .ok [b] := by
      have := slice_nat T (pre.length + cur.length) (pre.length + cur.length + 1) (by omega)
        (by omega)
      rw [Nat.add_sub_cancel_left] at this
      have hd : T.drop (pre.length + cur.length) = b :: t := by
        rw [hT, ← List.length_append, List.drop_left]
      rw [hd] at this
      push_cast at this
      rw [hi, this]
      rfl
    rw [hs, Res.ok_bind, splitSegments]
    by_cases hb : b = c
    · subst hb
      have hsl : slice T start i = .ok cur := by
        have := slice_nat T pre.length (pre.length + cur.length) (by omega) (by omega)
        rw [Nat.add_sub_cancel_left] at this
        have hd : (T.drop pre.length).take cur.length = cur := by
          rw [hT, List.append_assoc, List.drop_left, List.take_left]
        rw [hd] at this
        push_cast at this
        rw [hst, hi, this]
      rw [if_pos rfl, if_pos rfl, hsl, Res.ok_bind,
        ih (pre ++ cur ++ [b]) [] (acc ++ [cur]) f _ _ (by rw [hT]; simp)
          (by simp; omega) (by simp; omega) (by simp at hf; omega),
        List.append_assoc, List.singleton_append]
    · have hne : ¬ [b] = [c] := by
        intro h; injection h with h; exact hb h
      rw [if_neg hne, if_neg hb]
      exact ih pre (cur ++ [b]) acc f _ _ (by rw [hT]; simp) (by simp; omega) hst
        (by simp at hf; omega)

/-- What `Split` computes with a one-byte separator: the reference segments. -/
theorem Split_eq_splitSegments (T : GoString) (c : Byte) (fuel : Nat) (hf : T.length ≤ fuel) :
    Split fuel T [c] = .ok (splitSegments c T []) := by
  have := splitLoop_segments T c T [] [] [] fuel 0 0 (by simp) (by simp) (by simp) hf
  rw [List.nil_append] at this
  exact this

theorem splitSegments_no_separator (c : Byte) (T : GoString) (h : c ∉ T) :
    ∀ cur : GoString, splitSegments c T cur = if cur ++ T = [] then [] else [cur ++ T] := by
  induction T with
  | nil => intro cur; simp [splitSegments]
  | cons b t ih =>
    intro cur
    have hb : b ≠ c := fun e => h (by rw [e]; exact List.mem_cons_self _ _)
    have ht : c ∉ t := fun e => h (List.mem_cons_of_mem _ e)
    rw [splitSegments, if_neg hb, ih ht]
    simp

theorem splitSegments_no_separator_mem (c : Byte) (T : GoString) :
    ∀ cur : GoString, c ∉ cur → ∀ seg ∈ splitSegments c T cur, c ∉ seg := by
  induction T with
  | nil =>
    intro cur hcur seg hseg
    rw [splitSegments] at hseg
    split_ifs at hseg
    · simp at hseg
    · rw [List.mem_singleton.mp hseg]; exact hcur
  | cons b t ih =>
    intro cur hcur seg hseg
    rw [splitSegments] at hseg
    split_ifs at hseg with hb
    · rcases List.mem_cons.mp hseg with h | h
      · rw [h]; exact hcur
      · exact ih [] (by simp) seg h
    · refine ih (cur ++ [b]) ?_ seg hseg
      intro hm
      rcases List.mem_append.mp hm with hm | hm
      · exact hcur hm
      · exact hb (List.mem_singleton.mp hm).symm

theorem dropEmptyLast_cons (x : GoString) (l : List GoString) (hl : l ≠ []) :
    dropEmptyLast (x :: l) = x :: dropEmptyLast l := by
  unfold dropEmptyLast
  obtain ⟨y, l', rfl⟩ := List.exists_cons_of_ne_nil hl
  rw [List.getLast?_cons_cons]
  split_ifs <;> simp

theorem modifyHead_nil_append (l : List GoString) :
    l.modifyHead (fun x => ([] : GoString) ++ x) = l := by
  cases l <;> simp

theorem modifyHead_cons_append (b : Byte) (cur : GoString) (l : List GoString) :
    (l.modifyHead (List.cons b)).modifyHead (fun x => cur ++ x)
      = l.modifyHead (fun x => (cur ++ [b]) ++ x) := by
  cases l <;> simp

theorem splitSegments_eq_splitOnP (c : Byte) (T : GoString) :
    ∀ cur : GoString,
      splitSegments c T cur
        = dropEmptyLast ((T.splitOnP (fun x => x == c)).modifyHead (fun x => cur ++ x)) := by
  induction T with
  | nil =>
    intro cur
    rw [splitSegments, List.splitOnP_nil]
    simp only [List.modifyHead_cons, List.append_nil, dropEmptyLast]
    by_cases h : cur = []
    · simp [h]
    · simp [h]
  | cons b t ih =>
    intro cur
    rw [splitSegments, List.splitOnP_cons]
    by_cases hb : b = c
    · subst hb
      simp only [beq_self_eq_true, if_true, List.modifyHead_cons, List.append_nil]
      rw [dropEmptyLast_cons _ _ (List.splitOnP_ne_nil _ _), ih [], modifyHead_nil_append]
    · have hbc : (b == c) = false := by simpa using hb
      rw [if_neg hb, hbc, ih (cur ++ [b])]
      simp only [Bool.false_eq_true, if_false]
      rw [modifyHead_cons_append]

/-- The reference segments are those of the library function `List.splitOn`,
without the last one when it is empty. -/
theorem splitSegments_eq_splitOn (c : Byte) (T : GoString) :
    splitSegments c T [] = dropEmptyLast (T.splitOn c) := by
  rw [splitSegments_eq_splitOnP, modifyHead_nil_append]
  rfl

/-- C16: for every text `T` and one-byte separator `c`, `Split T c`, given
fuel for `len(T)` iterations, delivers the reference segments: the pieces of
`T` between consecutive occurrences of `c` (empty pieces included), the piece
after the last `c` only when it is non-empty; these are the segments of the
library's `List.splitOn` without an empty last one, and none contains `c`.
`Split("", c) = []`, `Split(T, c) = [T]` for a non-empty `T` without `c`,
`Split("a,", ",") = ["a"]`, `Split(",a,,", ",") = ["", "a", ""]` and
`Split("Hello Go World", " ") = ["Hello","Go","World"]`. -/
theorem C16_Split_one_byte_separator (T : GoString) (c : Byte) (k : Nat) :
    Split (T.length + k) T [c] = .ok (splitSegments c T [])
    ∧ splitSegments c T [] = dropEmptyLast (T.splitOn c)
    ∧ (∀ seg ∈ splitSegments c T [], c ∉ seg)
    ∧ Split k [] [c] = .ok []
    ∧ (T ≠ [] → c ∉ T → Split (T.length + k) T [c] = .ok [T])
    ∧ Split 2 (str "a,") (str ",") = .ok [str "a"]
    ∧ Split 4 (str ",a,,") (str ",") = .ok [str "", str "a", str ""]
    ∧ Split 14 (str "Hello Go World") (str " ") = .ok [str "Hello", str "Go", str "World"] := by
  refine ⟨Split_eq_splitSegments T c _ (by omega), splitSegments_eq_splitOn c T,
    splitSegments_no_separator_mem c T [] (by simp),
    Split_eq_splitSegments [] c k (Nat.zero_le _), ?_, by decide, by decide, by decide⟩
  intro hT hc
  rw [Split_eq_splitSegments T c _ (by omega), splitSegments_no_separator c T hc,
    List.nil_append, if_neg hT]

/-! ## `CapitalizeFirstLetter` -/

theorem index_zero_cons (b : Byte) (t : GoString) : index (b :: t) 0 = .ok b := rfl

theorem slice_tail (b : Byte) (t : GoString) :
    slice (b :: t) 1 ((b :: t).length : Int) = .ok t := by
  have := slice_nat (b :: t) 1 (b :: t).length (by simp) (Nat.le_refl _)
  simp only [List.length_cons, Nat.add_sub_cancel, List.drop_succ_cons, List.drop_zero,
    List.take_length] at this
  simp only [List.length_cons]
  exact this

theorem CapitalizeFirstLetter_cons (b : Byte) (t : GoString) :
    CapitalizeFirstLetter (b :: t) = .ok (EncodeRune (unicodeToUpper b.val) ++ Lower t) := by
  unfold CapitalizeFirstLetter
  rw [if_neg (by simp), index_zero_cons, Res.ok_bind, slice_tail, Res.ok_bind]

theorem Upper_ascii_byte (b : Byte) (hb : b.val < 0x80) :
    Upper [b] = EncodeRune (unicodeToUpper b.val) := by
  rw [Upper_eq, runes_cons, DecodeRune_one b [] hb]
  simp only [List.drop_succ_cons, List.drop_zero, runes_nil, List.map_cons, List.map_nil,
    EncodeRunes_cons, EncodeRunes_nil, List.append_nil]
  congr 1
  unfold unicodeToUpper
  split_ifs <;> omega

/-- C14, the code at the failing input: `CapitalizeFirstLetter("é")` (bytes
`C3 A9`) delivers the bytes `C3 83 EF BF BD` (`"Ã"` and U+FFFD): the first byte
is upper-cased as a rune of its own and the second byte is left to `Lower` as
an invalid string. The claim's `Upper(c) ++ Lower(r)` is `"é"`. When the first
byte is ASCII the code delivers `Upper [b] ++ Lower t`;
`CapitalizeFirstLetter("hELLO") = "Hello"` and `CapitalizeFirstLetter("") = ""`. -/
theorem C14_CapitalizeFirstLetter_first_byte :
    CapitalizeFirstLetter (str "\u00e9") = .ok [0xC3, 0x83, 0xEF, 0xBF, 0xBD]
    ∧ capitalizeRef (str "\u00e9") = str "\u00e9"
    ∧ (∀ (b : Byte) (t : GoString), b.val < 0x80 →
        CapitalizeFirstLetter (b :: t) = .ok (Upper [b] ++ Lower t))
    ∧ CapitalizeFirstLetter (str "hELLO") = .ok (str "Hello")
    ∧ CapitalizeFirstLetter [] = .ok [] := by
  refine ⟨by decide, by decide, ?_, by decide, rfl⟩
  intro b t hb
  rw [CapitalizeFirstLetter_cons, Upper_ascii_byte b hb]

theorem CapitalizeFirstLetterOn_cons (b : Byte) (t : GoString) (result : List GoString) :
    CapitalizeFirstLetterOn (b :: t) result
      = .ok (result ++ [Lower t, EncodeRune (unicodeToUpper b.val) ++ Lower t]) := by
  unfold CapitalizeFirstLetterOn
  rw [if_neg (by simp), index_zero_cons, Res.ok_bind, slice_tail, Res.ok_bind]
  simp [send, LowerOn]

/-- C17, the code at the failing input: `CapitalizeFirstLetter("hELLO")`
writes two values to its channel, `"ello"` (sent by the call of `Lower` on the
same channel) and then `"Hello"`; so it does on every non-empty input. On the
empty input it writes one value, and `Lower` writes one value. -/
theorem C17_CapitalizeFirstLetter_two_sends :
    CapitalizeFirstLetterOn (str "hELLO") [] = .ok [str "ello", str "Hello"]
    ∧ (∀ (b : Byte) (t : GoString) (result : List GoString),
        CapitalizeFirstLetterOn (b :: t) result
          = .ok (result ++ [Lower t, EncodeRune (unicodeToUpper b.val) ++ Lower t]))
    ∧ (∀ result : List GoString, CapitalizeFirstLetterOn [] result = .ok (result ++ [[]]))
    ∧ (∀ (input : GoString) (result : List GoString),
        LowerOn input result = result ++ [Lower input]) :=
  ⟨by decide, CapitalizeFirstLetterOn_cons, fun _ => rfl, fun _ _ => rfl⟩

end PythonGo
